import Mathlib

/-!
# Verification of the fridom domain-decomposition and distributed-FFT core

Shallow embedding of the subsystem in
`src/fridom/framework/domain_decomposition/`:

* `subdomain.pyx` — `Subdomain` (per-rank slice of the global index space,
  slice arithmetic, overlap detection);
* `domain_decomposition.pyx` — `DomainDecomposition` (process grid,
  halo synchronisation, boundary conditions) and `Transformer`
  (redistribution of array data between two decompositions);
* `parallel_fft.pyx` — `ParallelFFT` (chain planning: intermediate
  decompositions and per-stage transform axes).

Arrays are modelled as total value maps over integer index lists together
with a shape; Python slices (with optional and negative endpoints) are
resolved against an axis length exactly as NumPy basic slicing does for
step 1.  MPI communication is modelled SPMD-style: the complete state is a
map from process rank to that rank's local array, and a communication step
is a pure function on that map.  MPI cartesian rank numbering is row-major
(last dimension varies fastest), matching `Cartcomm.Get_coords`.
-/

namespace Fridom

/-- A Python `slice(start, stop)` whose two endpoints are both concrete
integers (the form produced by the `Subdomain` slice arithmetic). -/
structure Sl where
  start : Int
  stop : Int
deriving DecidableEq, Repr

/-- A Python `slice(start, stop)` with optional endpoints, as stored in the
halo-exchange slice lists (`slice(None)`, `slice(-halo, None)`, ...). -/
structure PySlice where
  lo : Option Int
  hi : Option Int
deriving DecidableEq, Repr

/-- The full slice `slice(None)`. -/
def PySlice.full : PySlice := ⟨none, none⟩

instance : Inhabited PySlice := ⟨PySlice.full⟩

/-- Resolve one Python slice endpoint against an axis of length `n`
(step 1): a negative value counts from the end, and the result is clamped
into `[0, n]`. -/
def resolveEndpoint (n : Nat) (v : Int) : Nat :=
  if v < 0 then (min (max 0 (v + n)) n).toNat else (min v n).toNat

/-- Resolve a `PySlice` against an axis of length `n`, yielding the
half-open index interval `[lo, hi)` it selects (defaults `0` and `n`). -/
def PySlice.resolve (s : PySlice) (n : Nat) : Nat × Nat :=
  (match s.lo with
   | none => 0
   | some v => resolveEndpoint n v,
   match s.hi with
   | none => n
   | some v => resolveEndpoint n v)

/-- View an exact slice as a `PySlice`. -/
def Sl.toPy (s : Sl) : PySlice := ⟨some s.start, some s.stop⟩

/-- Row-major product of process-grid extents (`MPI` cartesian size). -/
def gridSize : List Nat → Nat
  | [] => 1
  | d :: ds => d * gridSize ds

/-- `Cartcomm.Get_coords`: decode a rank into cartesian coordinates,
row-major with the last dimension varying fastest. -/
def coordsOfRank : List Nat → Nat → List Nat
  | [], _ => []
  | d :: ds, r => (r / gridSize ds) % d :: coordsOfRank ds (r % gridSize ds)

/-- Inverse of `coordsOfRank`: encode cartesian coordinates as a rank. -/
def rankOfCoords : List Nat → List Nat → Nat
  | [], _ => 0
  | d :: ds, c => (c.headD 0 % d) * gridSize ds + rankOfCoords ds c.tail

/-!
## Subdomain (`subdomain.pyx`)

`Subdomain.__init__(rank, comm, n_global, halo)` reads
`coord = comm.Get_coords(rank)` and `n_procs = comm.Get_topo()[0]` and then
computes every attribute arithmetically.  `mkSubdomain` takes `coord` and
`n_procs` directly; `subdomainOfRank` composes with `coordsOfRank`.
-/

/-- The attributes computed by `Subdomain.__init__`. -/
structure Subdomain where
  n_global : List Nat
  halo : Nat
  coord : List Nat
  is_left_edge : List Bool
  is_right_edge : List Bool
  inner_shape : List Nat
  shape : List Nat
  position : List Nat
  global_slice : List Sl
deriving Repr

/-- `Subdomain.__init__`: base share `n_global[i] // n_procs[i]` per rank,
the last rank along an axis absorbing the remainder; position is
`coord[i] * base[i]`; `global_slice` is the owned half-open interval. -/
def mkSubdomain (coord : List Nat) (n_procs : List Nat)
    (n_global : List Nat) (halo : Nat) : Subdomain :=
  let n_base := List.zipWith (fun n p => n / p) n_global n_procs
  let remainder := List.zipWith
    (fun c np => if c = np.2 - 1 then np.1 % np.2 else 0)
    coord (n_global.zip n_procs)
  let inner_shape := List.zipWith (· + ·) n_base remainder
  { n_global := n_global
    halo := halo
    coord := coord
    is_left_edge := coord.map (fun c => c == 0)
    is_right_edge := List.zipWith (fun c n => c == n - 1) coord n_procs
    inner_shape := inner_shape
    shape := inner_shape.map (fun n => n + 2 * halo)
    position := List.zipWith (· * ·) coord n_base
    global_slice := List.zipWith
      (fun (p s : Nat) => (⟨(p : Int), (p : Int) + (s : Int)⟩ : Sl))
      (List.zipWith (· * ·) coord n_base) inner_shape }

/-- `Subdomain(rank, comm, n_global, halo)` with the cartesian coordinates
decoded from the rank. -/
def subdomainOfRank (rank : Nat) (n_procs : List Nat)
    (n_global : List Nat) (halo : Nat) : Subdomain :=
  mkSubdomain (coordsOfRank n_procs rank) n_procs n_global halo

/-- `Subdomain.has_overlap`: per axis (zipped over both `global_slice`
lists) the half-open intervals must intersect. -/
def Subdomain.has_overlap (a b : Subdomain) : Bool :=
  (a.global_slice.zip b.global_slice).all
    (fun my => !(decide (my.1.start ≥ my.2.stop) || decide (my.2.start ≥ my.1.stop)))

/-- `Subdomain.g2l_slice`: `local = global - position + halo` per axis. -/
def Subdomain.g2l_slice (sd : Subdomain) (global_slice : List Sl) : List Sl :=
  List.zipWith
    (fun (g : Sl) (p : Nat) => ⟨g.start - p + sd.halo, g.stop - p + sd.halo⟩)
    global_slice sd.position

/-- `Subdomain.get_overlap_slice`: per-axis global intersection
(`max` of starts, `min` of stops), then converted to local coordinates. -/
def Subdomain.get_overlap_slice (a b : Subdomain) : List Sl :=
  a.g2l_slice
    ((a.global_slice.zip b.global_slice).map
      (fun my => ⟨max my.1.start my.2.start, min my.1.stop my.2.stop⟩))

/-- `Subdomain.l2g_slice` as written in the source.  The loop header is
`for l, p, s in zip(local_slice, self.position)`: the zip yields pairs,
so unpacking into three names raises `ValueError` on the first iteration
whenever the zip is non-empty; only the empty case returns. -/
def Subdomain.l2g_slice (sd : Subdomain) (local_slice : List Sl) :
    Except String (List Sl) :=
  match local_slice.zip sd.position with
  | [] => .ok []
  | _ :: _ => .error "ValueError: not enough values to unpack (expected 3, got 2)"

/-- Scalar view of one axis of the decomposition arithmetic: the base
share of grid points each rank gets along an axis (`n_global // n_procs`). -/
def axBase (N p : Nat) : Nat := N / p

/-- Scalar view: the number of owned points of the rank with coordinate
`c` along an axis (the last rank absorbs the remainder). -/
def axInner (c N p : Nat) : Nat := N / p + (if c = p - 1 then N % p else 0)

/-- Scalar view: the global start offset of the rank with coordinate `c`
along an axis. -/
def axPos (c N p : Nat) : Nat := c * (N / p)

/-- Modelled from the spec: `l2g_slice(local_slice) -> global_slice` is the
inverse of `g2l_slice`, i.e. `global = local + position - halo` per axis.
The source's `Subdomain.l2g_slice` instead raises on every non-empty input
(stray third loop variable), so the spec-side conversion to global
coordinates is modelled here separately. -/
def Subdomain.l2g_slice_spec (sd : Subdomain) (local_slice : List Sl) : List Sl :=
  List.zipWith
    (fun (l : Sl) (p : Nat) => ⟨l.start + p - sd.halo, l.stop + p - sd.halo⟩)
    local_slice sd.position

/-!
## Array model

An n-dimensional array is a shape together with a total value map on index
lists; only indices below the shape are meaningful.  Slice indexing and
slice assignment follow NumPy basic slicing (step 1) on same-shaped
regions, which is the only form the core uses.
-/

/-- An n-dimensional array: per-axis extents plus a total value map. -/
structure NDArr (V : Type) where
  shape : List Nat
  data : List Nat → V

/-- Per-axis resolved lower bounds of a slice tuple against a shape. -/
def sliceLos (sls : List PySlice) (shape : List Nat) : List Nat :=
  List.zipWith (fun s n => (PySlice.resolve s n).1) sls shape

/-- Membership of an index in the region a slice tuple selects:
every constrained axis must lie in its resolved `[lo, hi)` interval. -/
def inRegion (shape : List Nat) (sls : List PySlice) (idx : List Nat) : Prop :=
  ∀ j, j < sls.length →
    (PySlice.resolve (sls.getD j default) (shape.getD j 0)).1 ≤ idx.getD j 0 ∧
    idx.getD j 0 < (PySlice.resolve (sls.getD j default) (shape.getD j 0)).2

instance (shape : List Nat) (sls : List PySlice) (idx : List Nat) :
    Decidable (inRegion shape sls idx) := by
  unfold inRegion; infer_instance

/-- `arr[sls]`: the selected sub-array (shape per axis `hi - lo`, data
shifted by the resolved lower bounds). -/
def sliceGet {V : Type} (a : NDArr V) (sls : List PySlice) : NDArr V :=
  { shape := List.zipWith
      (fun s n => (PySlice.resolve s n).2 - (PySlice.resolve s n).1) sls a.shape
    data := fun idx => a.data (List.zipWith (· + ·) idx (sliceLos sls a.shape)) }

/-- `dst[sls] = src` for a same-shaped `src`: inside the region the value
comes from `src` at the offset within the region, outside it is kept. -/
def sliceSet {V : Type} (a : NDArr V) (sls : List PySlice) (src : NDArr V) :
    NDArr V :=
  { shape := a.shape
    data := fun idx =>
      if inRegion a.shape sls idx then
        src.data (List.zipWith (· - ·) idx (sliceLos sls a.shape))
      else a.data idx }

/-- `dst[sls] = v` for a scalar `v` (broadcast assignment). -/
def sliceFill {V : Type} (a : NDArr V) (sls : List PySlice) (v : V) : NDArr V :=
  { shape := a.shape
    data := fun idx => if inRegion a.shape sls idx then v else a.data idx }

/-- `numpy.pad(a, paddings, mode='wrap')`: per axis, `before` cells are
prepended and `after` appended, values wrapping periodically over the
original extent. -/
def padWrap {V : Type} (a : NDArr V) (paddings : List (Nat × Nat)) : NDArr V :=
  { shape := List.zipWith (fun n p => p.1 + n + p.2) a.shape paddings
    data := fun idx => a.data
      (List.zipWith
        (fun (i : Nat) (pn : (Nat × Nat) × Nat) =>
          (((i : Int) - pn.1.1) % (pn.2 : Int)).toNat)
        idx (paddings.zip a.shape)) }

/-!
## DomainDecomposition (`domain_decomposition.pyx`)
-/

/-- `_make_slice_list(s, n_dims)`: for each axis `i` the slice tuple that
is `s` on axis `i` and `slice(None)` elsewhere. -/
def makeSliceList (s : PySlice) (n_dims : Nat) : List (List PySlice) :=
  (List.range n_dims).map
    (fun i => (List.range n_dims).map (fun j => if j = i then s else PySlice.full))

/-- The process-grid data a `DomainDecomposition` is built over.  `n_procs`
is the cartesian grid chosen by `MPI.Compute_dims` (shared axes and axes of
extent 1 forced to one process); it is a model parameter here. -/
structure DDm where
  n_global : List Nat
  halo : Nat
  n_procs : List Nat
deriving Repr

namespace DDm

/-- Number of dimensions. -/
def nDims (dd : DDm) : Nat := dd.n_global.length

/-- Total number of processes in the cartesian grid. -/
def size (dd : DDm) : Nat := gridSize dd.n_procs

/-- The subdomain of a given rank (`all_subdomains[rank]`). -/
def sub (dd : DDm) (rank : Nat) : Subdomain :=
  subdomainOfRank rank dd.n_procs dd.n_global dd.halo

/-- `_send_to_next[axis]` : `slice(-2*halo, -halo)` on `axis`. -/
def sendToNext (dd : DDm) (axis : Nat) : List PySlice :=
  (makeSliceList ⟨some (-(2 * dd.halo : Int)), some (-(dd.halo : Int))⟩ dd.nDims).getD axis []

/-- `_send_to_prev[axis]` : `slice(halo, 2*halo)` on `axis`. -/
def sendToPrev (dd : DDm) (axis : Nat) : List PySlice :=
  (makeSliceList ⟨some (dd.halo : Int), some (2 * dd.halo : Int)⟩ dd.nDims).getD axis []

/-- `_recv_from_next[axis]` : `slice(-halo, None)` on `axis`. -/
def recvFromNext (dd : DDm) (axis : Nat) : List PySlice :=
  (makeSliceList ⟨some (-(dd.halo : Int)), none⟩ dd.nDims).getD axis []

/-- `_recv_from_prev[axis]` : `slice(None, halo)` on `axis`. -/
def recvFromPrev (dd : DDm) (axis : Nat) : List PySlice :=
  (makeSliceList ⟨none, some (dd.halo : Int)⟩ dd.nDims).getD axis []

/-- `_inner[axis]` : `slice(halo, -halo)` on `axis`. -/
def innerSl (dd : DDm) (axis : Nat) : List PySlice :=
  (makeSliceList ⟨some (dd.halo : Int), some (-(dd.halo : Int))⟩ dd.nDims).getD axis []

/-- `_paddings[axis]` : `(halo, halo)` on `axis`, `(0, 0)` elsewhere. -/
def paddings (dd : DDm) (axis : Nat) : List (Nat × Nat) :=
  (List.range dd.nDims).map
    (fun i => if i = axis then (dd.halo, dd.halo) else (0, 0))

/-- `DomainDecomposition.__init__` validation: every axis with more than
one process must have `my_subdomain.inner_shape[axis] >= halo`, otherwise
a `ValueError` is raised at construction. -/
def construct (n_global : List Nat) (halo : Nat) (n_procs : List Nat)
    (rank : Nat) : Except String DDm :=
  let my_subdomain := subdomainOfRank rank n_procs n_global halo
  if (List.range n_global.length).any
      (fun i => n_procs.getD i 1 ≠ 1 ∧ my_subdomain.inner_shape.getD i 0 < halo)
  then .error "ValueError: Number of grid points in the direction is too small."
  else .ok ⟨n_global, halo, n_procs⟩

/-- `_sync_axis_same_proc`: with one process on the axis the exchange is a
local periodic wrap; if `n_global[axis] < halo` it is a wrap-mode pad of
the inner region instead. -/
def syncAxisSameProc {V : Type} (dd : DDm) (a : NDArr V) (axis : Nat) : NDArr V :=
  if dd.n_global.getD axis 0 < dd.halo then
    padWrap (sliceGet a (dd.innerSl axis)) (dd.paddings axis)
  else
    let a1 := sliceSet a (dd.recvFromNext axis) (sliceGet a (dd.sendToPrev axis))
    sliceSet a1 (dd.recvFromPrev axis) (sliceGet a1 (dd.sendToNext axis))

/-- `_sync_axis` over the full SPMD state (rank-indexed local arrays):
with several processes on the axis, each rank's two halo regions receive
edge regions sent by its periodic neighbours; all send buffers are read
from the pre-exchange state.  Every message travels on the axis
subcommunicator with `tag=0`.  With three or more processes the two
neighbours are distinct ranks, so `buf_recv_next` (the only receive
posted for `next`) gets `next`'s `buf_send_prev` and symmetrically.  With
exactly two processes `next == prev`: the peer posts `buf_send_next`
before `buf_send_prev` and this rank posts `buf_recv_next` before
`buf_recv_prev`, all four with the same source/tag, so the MPI
non-overtaking rule matches them in posting order — `buf_recv_next`
receives the peer's `buf_send_next` and `buf_recv_prev` the peer's
`buf_send_prev`. -/
def syncAxisAll {V : Type} (dd : DDm) (state : Nat → NDArr V) (axis : Nat) :
    Nat → NDArr V :=
  fun r =>
    let p := dd.n_procs.getD axis 1
    if p = 1 then dd.syncAxisSameProc (state r) axis
    else
      let c := coordsOfRank dd.n_procs r
      let ca := c.getD axis 0
      let next := rankOfCoords dd.n_procs (c.set axis ((ca + 1) % p))
      let prev := rankOfCoords dd.n_procs (c.set axis ((ca + p - 1) % p))
      if p = 2 then
        let a1 := sliceSet (state r) (dd.recvFromNext axis)
          (sliceGet (state next) (dd.sendToNext axis))
        sliceSet a1 (dd.recvFromPrev axis)
          (sliceGet (state prev) (dd.sendToPrev axis))
      else
        let a1 := sliceSet (state r) (dd.recvFromNext axis)
          (sliceGet (state next) (dd.sendToPrev axis))
        sliceSet a1 (dd.recvFromPrev axis)
          (sliceGet (state prev) (dd.sendToNext axis))

/-- `sync` / `sync_list`: nothing to do when `halo == 0`; otherwise the
axes are synchronised strictly one after another, skipping `flat_axes`. -/
def syncAll {V : Type} (dd : DDm) (state : Nat → NDArr V)
    (flat_axes : List Nat) : Nat → NDArr V :=
  if dd.halo = 0 then state
  else (List.range dd.nDims).foldl
    (fun st ax => if ax ∈ flat_axes then st else dd.syncAxisAll st ax) state

/-- `apply_boundary_condition(arr, bc, axis, side)` as executed on one
rank: only global-edge ranks write, a bad `side` raises `ValueError`. -/
def applyBoundaryCondition {V : Type} (dd : DDm) (rank : Nat) (arr : NDArr V)
    (bc : V) (axis : Nat) (side : String) : Except String (NDArr V) :=
  if side = "left" then
    .ok (if (dd.sub rank).is_left_edge.getD axis false then
      sliceFill arr (dd.recvFromPrev axis) bc else arr)
  else if side = "right" then
    .ok (if (dd.sub rank).is_right_edge.getD axis false then
      sliceFill arr (dd.recvFromNext axis) bc else arr)
  else .error "ValueError: Unknown side. Use left or right."

/-- Cartesian coordinate of rank `r` along axis `j`. -/
def coordAt (dd : DDm) (r j : Nat) : Nat := (coordsOfRank dd.n_procs r).getD j 0

/-- Process count along axis `j`. -/
def pAt (dd : DDm) (j : Nat) : Nat := dd.n_procs.getD j 0

/-- Global extent along axis `j`. -/
def nAt (dd : DDm) (j : Nat) : Nat := dd.n_global.getD j 0

/-- Owned extent of rank `r` along axis `j`. -/
def innerAtR (dd : DDm) (r j : Nat) : Nat := axInner (coordAt dd r j) (nAt dd j) (pAt dd j)

/-- Global start offset of rank `r` along axis `j`. -/
def posAtR (dd : DDm) (r j : Nat) : Nat := axPos (coordAt dd r j) (nAt dd j) (pAt dd j)

/-- Local (halo-included) extent of rank `r` along axis `j`. -/
def shapeAtR (dd : DDm) (r j : Nat) : Nat := innerAtR dd r j + 2 * dd.halo

/-- A local index lies in rank `r`'s owned (non-halo) region. -/
def ownedIdx (dd : DDm) (r : Nat) (idx : List Nat) : Prop :=
  idx.length = dd.nDims ∧
  ∀ j, j < dd.nDims →
    dd.halo ≤ idx.getD j 0 ∧ idx.getD j 0 < dd.halo + innerAtR dd r j

/-- Local-to-global index map of rank `r` (per axis
`global = local - halo + position`). -/
def l2gIdx (dd : DDm) (r : Nat) (idx : List Nat) : List Nat :=
  (List.range dd.nDims).map (fun j => posAtR dd r j + idx.getD j 0 - dd.halo)

/-- The SPMD state agrees with a global field `g` on every rank's owned
region (and every local array has its subdomain's shape). -/
def ownedAgree {V : Type} (dd : DDm) (state : Nat → NDArr V)
    (g : List Nat → V) : Prop :=
  ∀ r, r < dd.size →
    (state r).shape = (dd.sub r).shape ∧
    ∀ idx, ownedIdx dd r idx → (state r).data idx = g (l2gIdx dd r idx)

/-- Periodic wrap of the axis coordinate of a halo cell to its global
source point: `(position + local - halo) mod n_global[axis]`. -/
def wrapG (dd : DDm) (r axis i : Nat) : Nat :=
  (((posAtR dd r axis + i : Int) - dd.halo) % (nAt dd axis : Int)).toNat

/-- The global source point of local index `idx` on rank `r` when the
coordinate along `axis` may lie in the halo (periodic wrap on that axis,
plain local-to-global on the others). -/
def haloSourceIdx (dd : DDm) (r axis : Nat) (idx : List Nat) : List Nat :=
  (List.range dd.nDims).map
    (fun j => if j = axis then wrapG dd r axis (idx.getD axis 0)
              else posAtR dd r j + idx.getD j 0 - dd.halo)

end DDm

/-!
## Transformer (`transformer.pyx` part of `domain_decomposition.pyx`)
-/

/-- `Transformer.__init__` fast-path flag: the two domains count as the
same when `n_procs` agree pairwise (zipped) and the halos agree. -/
def sameDomain (din dout : DDm) : Bool :=
  ((din.n_procs.zip dout.n_procs).all (fun x => x.1 == x.2))
    && (din.halo == dout.halo)

/-- The data movement of `transform` (`same_domain == False` path), over
the SPMD state: rank `r`'s output starts as zeros of the output subdomain
shape, receives from every overlapping source rank the source's overlap
slice (placed at `r`'s local coordinates of the same global box, in
ascending source order, the self-overlap copied last), before the final
halo sync. -/
def transformScatter {V : Type} [Zero V] (din dout : DDm)
    (state : Nat → NDArr V) : Nat → NDArr V :=
  fun r =>
    let outSub := dout.sub r
    let base : NDArr V := ⟨outSub.shape, fun _ => 0⟩
    let afterRecv := (List.range din.size).foldl
      (fun acc s =>
        if s = r then acc
        else if (din.sub s).has_overlap outSub then
          sliceSet acc ((outSub.get_overlap_slice (din.sub s)).map Sl.toPy)
            (sliceGet (state s) (((din.sub s).get_overlap_slice outSub).map Sl.toPy))
        else acc) base
    if (din.sub r).has_overlap outSub then
      sliceSet afterRecv ((outSub.get_overlap_slice (din.sub r)).map Sl.toPy)
        (sliceGet (state r) (((din.sub r).get_overlap_slice outSub).map Sl.toPy))
    else afterRecv

/-- `transform(domain_in, domain_out, ...)` over the SPMD state:
identity for `same_domain`, otherwise scatter followed by a halo sync in
the output domain.  `Transformer.forward` instantiates this with the
constructor's domains, `Transformer.backward` with the roles swapped. -/
def transform {V : Type} [Zero V] (din dout : DDm)
    (state : Nat → NDArr V) : Nat → NDArr V :=
  if sameDomain din dout then state
  else dout.syncAll (transformScatter din dout state) []

/-!
## ParallelFFT chain planning (`parallel_fft.pyx`)

The constructor's list/set computations. Python sets of small non-negative
ints (`hash(i) == i`) iterate in ascending order, so `list(set ops)` is
modelled as an ordered filter over `range(n_dims)`.
-/

/-- The chain data `ParallelFFT.__init__` derives from the input domain's
shared axes and the requested output shared axes. -/
structure FFTPlan where
  shared_axes_out : List Nat
  shared_axes_mids : List (List Nat)
  fft_axes : List (List Nat)
deriving DecidableEq, Repr

/-- `ParallelFFT.__init__` planning: validation of the shared-axis counts,
filling of `shared_axes_out` by popping from `shared_axes_in +
axes_missing`, the intermediate-stage grouping (note the source computes
`n = len(axes_missing)`, so `[axes_missing[i:i+n] for i in range(0, n, n)]`
is the single chunk `[axes_missing]`, then appends `shared_axes_out` and
truncates to `n_shared_axes` elements), and the per-stage transform axes
with already-transformed axes removed. -/
def parallelFFTPlan (n_dims : Nat) (shared_axes_in shared_axes_out0 : List Nat) :
    Except String FFTPlan :=
  let n_shared := shared_axes_in.length
  if n_shared = 0 then
    .error "ValueError: The input domain must have at least one shared axis"
  else if n_shared < shared_axes_out0.length then
    .error "ValueError: The number of shared axes in the output domain must be less than or equal to the number of shared axes in the input domain"
  else
    let axes_missing0 := (List.range n_dims).filter
      (fun i => i ∉ shared_axes_in ∧ i ∉ shared_axes_out0)
    let axes := shared_axes_in ++ axes_missing0
    let shared_axes_out := shared_axes_out0 ++
      (axes.reverse.take (n_shared - shared_axes_out0.length))
    let axes_missing := (List.range n_dims).filter
      (fun i => i ∉ shared_axes_in ∧ i ∉ shared_axes_out)
    let shared_axes_mids : List (List Nat) :=
      if axes_missing.isEmpty then []
      else [(axes_missing ++ shared_axes_out).take n_shared]
    let start : List (List Nat) × List Nat :=
      ([shared_axes_in], (List.range n_dims).filter (fun i => i ∉ shared_axes_in))
    let step := shared_axes_mids.foldl
      (fun (acc : List (List Nat) × List Nat) mid =>
        let m := (List.range n_dims).filter (fun i => i ∈ mid ∧ i ∈ acc.2)
        (acc.1 ++ [m], acc.2.filter (fun i => i ∉ m))) start
    let finalAxes := (List.range n_dims).filter
      (fun i => i ∈ shared_axes_out ∧ i ∈ step.2)
    .ok ⟨shared_axes_out, shared_axes_mids, step.1 ++ [finalAxes]⟩

/-- A small concrete decomposition used to exercise the synchronisation
theorems on explicit inputs: 4 global points, halo 1, two processes on
the single axis. -/
def demoDD : DDm := ⟨[4], 1, [2]⟩

/-- A concrete global field: the value at a global index is its first-axis
coordinate. -/
def demoField (idx : List Nat) : Nat := idx.getD 0 0

/-- The SPMD state in which every rank holds the restriction of
`demoField` to its own subdomain. -/
def demoState (r : Nat) : NDArr Nat :=
  ⟨(demoDD.sub r).shape, fun idx => demoField (demoDD.l2gIdx r idx)⟩

/-- A concrete decomposition with three processes on the single axis:
6 global points, halo 1. -/
def demo3DD : DDm := ⟨[6], 1, [3]⟩

/-- The SPMD state of `demo3DD` holding the restriction of `demoField` to
each rank's subdomain. -/
def demo3State (r : Nat) : NDArr Nat :=
  ⟨(demo3DD.sub r).shape, fun idx => demoField (demo3DD.l2gIdx r idx)⟩

/-!
## Generic list-indexing helpers
-/

theorem getD_zipWith_eq {α β γ : Type} (f : α → β → γ) (a : List α) (b : List β)
    (i : Nat) (da : α) (db : β) (d : γ) (ha : i < a.length) (hb : i < b.length) :
    (List.zipWith f a b).getD i d = f (a.getD i da) (b.getD i db) := by
  rw [List.getD_eq_getElem _ _ (by simp [List.length_zipWith]; omega),
      List.getD_eq_getElem _ _ ha, List.getD_eq_getElem _ _ hb]
  simp [List.getElem_zipWith]

theorem getD_map_eq {α β : Type} (f : α → β) (l : List α) (i : Nat)
    (da : α) (d : β) (h : i < l.length) :
    (l.map f).getD i d = f (l.getD i da) := by
  rw [List.getD_eq_getElem _ _ (by simpa using h), List.getD_eq_getElem _ _ h]
  simp [List.getElem_map]

theorem getD_range_eq (n i : Nat) (d : Nat) (h : i < n) :
    (List.range n).getD i d = i := by
  rw [List.getD_eq_getElem _ _ (by simpa using h)]
  simp [List.getElem_range]

theorem getD_zip_eq {α β : Type} (a : List α) (b : List β) (i : Nat)
    (da : α) (db : β) (ha : i < a.length) (hb : i < b.length) :
    (a.zip b).getD i (da, db) = (a.getD i da, b.getD i db) := by
  rw [List.getD_eq_getElem _ _ (by simp [List.length_zip]; omega),
      List.getD_eq_getElem _ _ ha, List.getD_eq_getElem _ _ hb]
  simp [List.getElem_zip]

theorem getD_set_self {α : Type} (l : List α) (i : Nat) (v d : α)
    (h : i < l.length) :
    (l.set i v).getD i d = v := by
  rw [List.getD_eq_getElem _ _ (by simpa using h)]
  simp

theorem getD_set_ne {α : Type} (l : List α) (i j : Nat) (v d : α)
    (hne : i ≠ j) :
    (l.set i v).getD j d = l.getD j d := by
  by_cases hj : j < l.length
  · rw [List.getD_eq_getElem _ _ (by simpa using hj), List.getD_eq_getElem _ _ hj]
    exact List.getElem_set_ne hne _
  · rw [List.getD_eq_default _ _ (by simpa using Nat.le_of_not_lt hj),
        List.getD_eq_default _ _ (Nat.le_of_not_lt hj)]

/-!
## One-axis partition arithmetic
-/

theorem partition_core (b r p g : Nat) (hp : 0 < p) (hg : g < p * b + r) :
    ∃ c, c < p ∧ c * b ≤ g ∧ g < c * b + (b + if c = p - 1 then r else 0) := by
  by_cases hb0 : b = 0
  · refine ⟨p - 1, by omega, by simp [hb0], ?_⟩
    rw [if_pos rfl]
    subst hb0
    simp only [Nat.mul_zero] at hg ⊢
    omega
  · have hdm := Nat.div_add_mod g b
    have hmod : g % b < b := Nat.mod_lt g (by omega)
    have hcomm : b * (g / b) = g / b * b := Nat.mul_comm b (g / b)
    by_cases hc : g / b < p - 1
    · refine ⟨g / b, by omega, by omega, ?_⟩
      rw [if_neg (by omega)]
      omega
    · refine ⟨p - 1, by omega, ?_, ?_⟩
      · have h1 : (p - 1) * b ≤ g / b * b := Nat.mul_le_mul_right b (by omega)
        omega
      · rw [if_pos rfl]
        have h2 : (p - 1) * b + b = p * b := by
          have h3 : p - 1 + 1 = p := by omega
          calc (p - 1) * b + b = (p - 1 + 1) * b := by ring
            _ = p * b := by rw [h3]
        omega

theorem partition_disjoint (N p g c1 c2 : Nat) (hlt : c1 < c2) (hc2 : c2 < p)
    (h1 : g < axPos c1 N p + axInner c1 N p) (h2 : axPos c2 N p ≤ g) : False := by
  simp only [axPos, axInner] at h1 h2
  rw [if_neg (by omega : ¬ c1 = p - 1)] at h1
  have hmul : (c1 + 1) * (N / p) ≤ c2 * (N / p) := Nat.mul_le_mul_right _ (by omega)
  have hexp : (c1 + 1) * (N / p) = c1 * (N / p) + N / p := by ring
  omega

theorem axPartition (N p g : Nat) (hp : 0 < p) (hg : g < N) :
    ∃! c, c < p ∧ axPos c N p ≤ g ∧ g < axPos c N p + axInner c N p := by
  have hkey : p * (N / p) + N % p = N := Nat.div_add_mod N p
  obtain ⟨c, hcp, hle, hlt⟩ := partition_core (N / p) (N % p) p g hp (by omega)
  refine ⟨c, ⟨hcp, hle, hlt⟩, ?_⟩
  intro y hy
  rcases Nat.lt_trichotomy y c with h | h | h
  · exact absurd (partition_disjoint N p g y c h hcp hy.2.2 hle) not_false
  · exact h
  · exact absurd (partition_disjoint N p g c y h hy.1 hlt hy.2.1) not_false

/-!
## Subdomain field access lemmas
-/

theorem inner_shape_getD (coord n_procs n_global : List Nat) (halo i : Nat)
    (hc : i < coord.length) (hp : i < n_procs.length) (hg : i < n_global.length) :
    (mkSubdomain coord n_procs n_global halo).inner_shape.getD i 0 =
      axInner (coord.getD i 0) (n_global.getD i 0) (n_procs.getD i 0) := by
  have hlen : i < (mkSubdomain coord n_procs n_global halo).inner_shape.length := by
    simp [mkSubdomain, List.length_zipWith, List.length_zip]
    omega
  rw [List.getD_eq_getElem _ _ hlen, List.getD_eq_getElem _ _ hc,
      List.getD_eq_getElem _ _ hp, List.getD_eq_getElem _ _ hg]
  simp [mkSubdomain, axInner, List.getElem_zipWith, List.getElem_zip]

theorem position_getD (coord n_procs n_global : List Nat) (halo i : Nat)
    (hc : i < coord.length) (hp : i < n_procs.length) (hg : i < n_global.length) :
    (mkSubdomain coord n_procs n_global halo).position.getD i 0 =
      axPos (coord.getD i 0) (n_global.getD i 0) (n_procs.getD i 0) := by
  have hlen : i < (mkSubdomain coord n_procs n_global halo).position.length := by
    simp [mkSubdomain, List.length_zipWith]
    omega
  rw [List.getD_eq_getElem _ _ hlen, List.getD_eq_getElem _ _ hc,
      List.getD_eq_getElem _ _ hp, List.getD_eq_getElem _ _ hg]
  simp [mkSubdomain, axPos, List.getElem_zipWith]

theorem shape_getD (coord n_procs n_global : List Nat) (halo i : Nat)
    (hc : i < coord.length) (hp : i < n_procs.length) (hg : i < n_global.length) :
    (mkSubdomain coord n_procs n_global halo).shape.getD i 0 =
      axInner (coord.getD i 0) (n_global.getD i 0) (n_procs.getD i 0) + 2 * halo := by
  have hlen : i < (mkSubdomain coord n_procs n_global halo).shape.length := by
    simp [mkSubdomain, List.length_zipWith, List.length_zip, List.length_map]
    omega
  rw [List.getD_eq_getElem _ _ hlen, List.getD_eq_getElem _ _ hc,
      List.getD_eq_getElem _ _ hp, List.getD_eq_getElem _ _ hg]
  simp [mkSubdomain, axInner, List.getElem_map, List.getElem_zipWith, List.getElem_zip]

theorem shape_length (coord n_procs n_global : List Nat) (halo : Nat)
    (hlc : coord.length = n_global.length) (hlp : n_procs.length = n_global.length) :
    (mkSubdomain coord n_procs n_global halo).shape.length = n_global.length := by
  simp [mkSubdomain, List.length_zipWith, List.length_zip, List.length_map]
  omega

theorem global_slice_getD (coord n_procs n_global : List Nat) (halo i : Nat)
    (hc : i < coord.length) (hp : i < n_procs.length) (hg : i < n_global.length) :
    (mkSubdomain coord n_procs n_global halo).global_slice.getD i ⟨0, 0⟩ =
      ⟨(axPos (coord.getD i 0) (n_global.getD i 0) (n_procs.getD i 0) : Int),
       (axPos (coord.getD i 0) (n_global.getD i 0) (n_procs.getD i 0) : Int) +
         (axInner (coord.getD i 0) (n_global.getD i 0) (n_procs.getD i 0) : Int)⟩ := by
  have hlen : i < (mkSubdomain coord n_procs n_global halo).global_slice.length := by
    simp only [mkSubdomain, List.length_zipWith, List.length_zip]
    omega
  rw [List.getD_eq_getElem _ _ hlen, List.getD_eq_getElem _ _ hc,
      List.getD_eq_getElem _ _ hp, List.getD_eq_getElem _ _ hg]
  simp only [mkSubdomain, axPos, axInner, List.getElem_zipWith, List.getElem_zip]

/-!
## Claim theorems: slice arithmetic and chain planning
-/

theorem position_length (coord n_procs n_global : List Nat) (halo : Nat) :
    (mkSubdomain coord n_procs n_global halo).position.length =
      min coord.length (min n_global.length n_procs.length) := by
  simp [mkSubdomain, List.length_zipWith]

theorem global_slice_length (coord n_procs n_global : List Nat) (halo : Nat) :
    (mkSubdomain coord n_procs n_global halo).global_slice.length =
      min coord.length (min n_global.length n_procs.length) := by
  simp [mkSubdomain, List.length_zipWith, List.length_zip]

theorem hasOverlap_comm (a b : Subdomain) : a.has_overlap b = b.has_overlap a := by
  unfold Subdomain.has_overlap
  rw [← List.zip_swap a.global_slice b.global_slice, List.all_map]
  congr 1
  funext my
  simp [Bool.or_comm, Bool.and_comm]

theorem interSlices_comm (a b : Subdomain) :
    (a.global_slice.zip b.global_slice).map
        (fun my => (⟨max my.1.start my.2.start, min my.1.stop my.2.stop⟩ : Sl)) =
      (b.global_slice.zip a.global_slice).map
        (fun my => (⟨max my.1.start my.2.start, min my.1.stop my.2.stop⟩ : Sl)) := by
  rw [← List.zip_swap a.global_slice b.global_slice, List.map_map]
  congr 1
  funext my
  simp [max_comm, min_comm]

theorem l2g_g2l_cancel (halo : Nat) :
    ∀ (gs : List Sl) (pos : List Nat), gs.length ≤ pos.length →
      List.zipWith
          (fun (l : Sl) (p : Nat) => (⟨l.start + p - halo, l.stop + p - halo⟩ : Sl))
          (List.zipWith
            (fun (g : Sl) (p : Nat) => (⟨g.start - p + halo, g.stop - p + halo⟩ : Sl))
            gs pos) pos = gs
  | [], _, _ => rfl
  | g :: gs, p :: pos, h => by
      simp only [List.zipWith]
      refine congrArg₂ _ ?_ (l2g_g2l_cancel halo gs pos (by simpa using h))
      cases g
      simp only [Sl.mk.injEq]
      constructor <;> ring
  | _ :: _, [], h => by simp at h

/-- C3: for any `n_global`, process grid and axis, the owned intervals
`[position, position + inner_shape)` of the ranks along that axis exactly
tile `[0, n_global[axis])` — every global point on the axis is owned by
exactly one process coordinate (no gaps, no overlaps); and concretely for
`n_global=[102]`, `n_procs=[10]`: ranks 0–8 each own 10 points, rank 9
owns 12, rank 9's position is `[90]` and its global slice is `[90:102]`. -/
theorem c3_partition_tiling (n_global n_procs coord : List Nat) (halo i g : Nat)
    (hlc : coord.length = n_global.length) (hlp : n_procs.length = n_global.length)
    (hi : i < n_global.length) (hp : 0 < n_procs.getD i 0)
    (hg : g < n_global.getD i 0) :
    (∃! c, c < n_procs.getD i 0 ∧
        (mkSubdomain (coord.set i c) n_procs n_global halo).position.getD i 0 ≤ g ∧
        g < (mkSubdomain (coord.set i c) n_procs n_global halo).position.getD i 0 +
            (mkSubdomain (coord.set i c) n_procs n_global halo).inner_shape.getD i 0) ∧
    (∀ r, r < 9 → (subdomainOfRank r [10] [102] 0).inner_shape = [10]) ∧
    (subdomainOfRank 9 [10] [102] 0).inner_shape = [12] ∧
    (subdomainOfRank 9 [10] [102] 0).position = [90] ∧
    (subdomainOfRank 9 [10] [102] 0).global_slice = [Sl.mk 90 102] := by
  refine ⟨?_, by decide, by decide, by decide, by decide⟩
  have hsetlen : ∀ c : Nat, (coord.set i c).length = coord.length :=
    fun c => List.length_set ..
  have hpos : ∀ c : Nat,
      (mkSubdomain (coord.set i c) n_procs n_global halo).position.getD i 0 =
        axPos c (n_global.getD i 0) (n_procs.getD i 0) := by
    intro c
    rw [position_getD _ _ _ _ _ (by rw [hsetlen]; omega) (by omega) hi,
        getD_set_self _ _ _ _ (by omega)]
  have hinner : ∀ c : Nat,
      (mkSubdomain (coord.set i c) n_procs n_global halo).inner_shape.getD i 0 =
        axInner c (n_global.getD i 0) (n_procs.getD i 0) := by
    intro c
    rw [inner_shape_getD _ _ _ _ _ (by rw [hsetlen]; omega) (by omega) hi,
        getD_set_self _ _ _ _ (by omega)]
  obtain ⟨c, hc, huniq⟩ := axPartition (n_global.getD i 0) (n_procs.getD i 0) g hp hg
  refine ⟨c, ?_, ?_⟩
  · dsimp only
    rw [hpos c, hinner c]
    exact hc
  · intro y hy
    refine huniq y ?_
    dsimp only
    rw [← hpos y, ← hinner y]
    exact hy

/-- Witness for C3 at a concrete input: `n_global = [102]`,
`n_procs = [10]`, global point `g = 95` on axis 0. -/
theorem c3_partition_tiling_witness :
    ((0 : Nat) < [10].getD 0 0 ∧ (95 : Nat) < [102].getD 0 0) ∧
    (∃! c, c < [10].getD 0 0 ∧
        (Fridom.mkSubdomain ([0].set 0 c) [10] [102] 1).position.getD 0 0 ≤ 95 ∧
        95 < (Fridom.mkSubdomain ([0].set 0 c) [10] [102] 1).position.getD 0 0 +
            (Fridom.mkSubdomain ([0].set 0 c) [10] [102] 1).inner_shape.getD 0 0) := by
  refine ⟨by decide, ?_⟩
  exact (c3_partition_tiling [102] [10] [0] 1 0 95 (by decide) (by decide)
    (by decide) (by decide) (by decide)).1

/-!
## Halo slice-list and region lemmas
-/

theorem makeSliceList_length (s : PySlice) (n : Nat) :
    (makeSliceList s n).length = n := by
  simp [makeSliceList]

theorem makeSliceList_getD_length (s : PySlice) (n ax : Nat) (hax : ax < n) :
    ((makeSliceList s n).getD ax []).length = n := by
  rw [List.getD_eq_getElem _ _ (by simpa [makeSliceList] using hax)]
  simp [makeSliceList]

theorem makeSliceList_getD (s : PySlice) (n ax : Nat) (hax : ax < n) :
    (makeSliceList s n).getD ax [] =
      (List.range n).map (fun j => if j = ax then s else PySlice.full) := by
  rw [List.getD_eq_getElem _ _ (by simpa [makeSliceList] using hax)]
  simp [makeSliceList, List.getElem_map, List.getElem_range]

theorem makeSliceList_getD_getD (s : PySlice) (n ax j : Nat)
    (hax : ax < n) (hj : j < n) :
    ((makeSliceList s n).getD ax []).getD j default =
      if j = ax then s else PySlice.full := by
  rw [makeSliceList_getD s n ax hax,
      List.getD_eq_getElem _ _ (by simpa using hj)]
  simp [List.getElem_map, List.getElem_range]

theorem resolve_full (m : Nat) : PySlice.full.resolve m = (0, m) := rfl

theorem resolve_none_some (m v : Nat) :
    (PySlice.mk none (some (v : Int))).resolve m = (0, min v m) := by
  simp only [PySlice.resolve, resolveEndpoint]
  split_ifs <;> (rw [Prod.mk.injEq]; constructor <;> omega)

theorem resolve_some_some (m a b : Nat) :
    (PySlice.mk (some (a : Int)) (some (b : Int))).resolve m =
      (min a m, min b m) := by
  simp only [PySlice.resolve, resolveEndpoint]
  split_ifs <;> (rw [Prod.mk.injEq]; constructor <;> omega)

theorem resolve_negsome_none (m v : Nat) (hv : 1 ≤ v) (hvm : v ≤ m) :
    (PySlice.mk (some (-(v : Int))) none).resolve m = (m - v, m) := by
  simp only [PySlice.resolve, resolveEndpoint]
  split_ifs <;> (rw [Prod.mk.injEq]; constructor <;> omega)

theorem resolve_negsome_negsome (m a b : Nat) (ha : 1 ≤ a) (ham : a ≤ m)
    (hb : 1 ≤ b) (hbm : b ≤ m) :
    (PySlice.mk (some (-(a : Int))) (some (-(b : Int)))).resolve m =
      (m - a, m - b) := by
  simp only [PySlice.resolve, resolveEndpoint]
  split_ifs <;> (rw [Prod.mk.injEq]; constructor <;> omega)

theorem resolve_some_negsome (m a b : Nat) (ham : a ≤ m) (hb : 1 ≤ b)
    (hbm : b ≤ m) :
    (PySlice.mk (some (a : Int)) (some (-(b : Int)))).resolve m =
      (a, m - b) := by
  simp only [PySlice.resolve, resolveEndpoint]
  split_ifs <;> (rw [Prod.mk.injEq]; constructor <;> omega)

theorem inRegion_axis_iff (s : PySlice) (n ax : Nat) (shape idx : List Nat)
    (hax : ax < n) :
    inRegion shape ((makeSliceList s n).getD ax []) idx ↔
      ((∀ j, j < n → j ≠ ax → idx.getD j 0 < shape.getD j 0) ∧
       (s.resolve (shape.getD ax 0)).1 ≤ idx.getD ax 0 ∧
       idx.getD ax 0 < (s.resolve (shape.getD ax 0)).2) := by
  unfold inRegion
  rw [makeSliceList_getD_length s n ax hax]
  constructor
  · intro hall
    refine ⟨fun j hj hne => ?_, ?_, ?_⟩
    · have hthis := hall j hj
      rw [makeSliceList_getD_getD s n ax j hax hj, if_neg hne, resolve_full] at hthis
      exact hthis.2
    · have hthis := hall ax hax
      rw [makeSliceList_getD_getD s n ax ax hax hax, if_pos rfl] at hthis
      exact hthis.1
    · have hthis := hall ax hax
      rw [makeSliceList_getD_getD s n ax ax hax hax, if_pos rfl] at hthis
      exact hthis.2
  · rintro ⟨hoff, h1, h2⟩ j hj
    rw [makeSliceList_getD_getD s n ax j hax hj]
    by_cases hje : j = ax
    · subst hje
      rw [if_pos rfl]
      exact ⟨h1, h2⟩
    · rw [if_neg hje, resolve_full]
      exact ⟨Nat.zero_le _, hoff j hj hje⟩

theorem sliceLos_axis_getD (s : PySlice) (n ax j : Nat) (shape : List Nat)
    (hax : ax < n) (hj : j < n) (hjs : j < shape.length) :
    (sliceLos ((makeSliceList s n).getD ax []) shape).getD j 0 =
      if j = ax then (s.resolve (shape.getD j 0)).1 else 0 := by
  unfold sliceLos
  rw [getD_zipWith_eq _ _ _ _ default 0 _
      (by rw [makeSliceList_getD_length s n ax hax]; omega) hjs,
    makeSliceList_getD_getD s n ax j hax hj]
  by_cases hje : j = ax
  · rw [if_pos hje, if_pos hje]
  · rw [if_neg hje, if_neg hje, resolve_full]

/-!
## Cartesian rank / coordinate lemmas
-/

theorem gridSize_pos : ∀ (dims : List Nat), (∀ d ∈ dims, 1 ≤ d) →
    1 ≤ gridSize dims
  | [], _ => le_refl 1
  | d :: ds, h => by
      have h1 := h d (List.mem_cons_self d ds)
      have h2 := gridSize_pos ds (fun x hx => h x (List.mem_cons_of_mem d hx))
      simp only [gridSize]
      exact Nat.mul_pos h1 h2

theorem coordsOfRank_length : ∀ (dims : List Nat) (r : Nat),
    (coordsOfRank dims r).length = dims.length
  | [], _ => rfl
  | _ :: ds, r => by simp [coordsOfRank, coordsOfRank_length ds]

theorem coordsOfRank_lt : ∀ (dims : List Nat) (r j : Nat), j < dims.length →
    1 ≤ dims.getD j 0 → (coordsOfRank dims r).getD j 0 < dims.getD j 0
  | [], _, _, hj, _ => by simp at hj
  | d :: ds, r, 0, _, hd => by
      simpa [coordsOfRank] using Nat.mod_lt _ (by simpa using hd)
  | d :: ds, r, j + 1, hj, hd => by
      simp only [coordsOfRank, List.getD_cons_succ] at *
      exact coordsOfRank_lt ds _ j (by simpa using hj) hd

theorem rankOfCoords_lt : ∀ (dims : List Nat) (c : List Nat),
    (∀ d ∈ dims, 1 ≤ d) → (∀ j, j < dims.length → c.getD j 0 < dims.getD j 0) →
    rankOfCoords dims c < gridSize dims
  | [], _, _, _ => by simp [rankOfCoords, gridSize]
  | d :: ds, c, hpos, hlt => by
      simp only [rankOfCoords, gridSize]
      have hrec : rankOfCoords ds c.tail < gridSize ds :=
        rankOfCoords_lt ds c.tail
          (fun x hx => hpos x (List.mem_cons_of_mem d hx))
          (fun j hj => by
            have h2 := hlt (j + 1) (by simpa using hj)
            simpa [List.getD_eq_getElem?_getD, List.getElem?_tail] using h2)
      have hc0 : c.headD 0 % d ≤ d - 1 := by
        have hd := hpos d (List.mem_cons_self d ds)
        have := Nat.mod_lt (c.headD 0) (by omega : 0 < d)
        omega
      have hmul : (c.headD 0 % d) * gridSize ds ≤ (d - 1) * gridSize ds :=
        Nat.mul_le_mul_right _ hc0
      have hexp : (d - 1) * gridSize ds + gridSize ds = d * gridSize ds := by
        have hd := hpos d (List.mem_cons_self d ds)
        have h1 : d - 1 + 1 = d := by omega
        calc (d - 1) * gridSize ds + gridSize ds
            = (d - 1 + 1) * gridSize ds := by ring
          _ = d * gridSize ds := by rw [h1]
      omega

theorem coordsOfRank_rankOfCoords : ∀ (dims : List Nat) (c : List Nat),
    c.length = dims.length → (∀ d ∈ dims, 1 ≤ d) →
    (∀ j, j < dims.length → c.getD j 0 < dims.getD j 0) →
    coordsOfRank dims (rankOfCoords dims c) = c
  | [], [], _, _, _ => rfl
  | d :: ds, c0 :: cs, hlen, hpos, hlt => by
      have hds : ∀ x ∈ ds, 1 ≤ x := fun x hx => hpos x (List.mem_cons_of_mem d hx)
      have hcs : ∀ j, j < ds.length → cs.getD j 0 < ds.getD j 0 := by
        intro j hj
        have h2 := hlt (j + 1) (by simpa using hj)
        simpa using h2
      have hrec : rankOfCoords ds cs < gridSize ds := by
        have : (c0 :: cs).tail = cs := rfl
        have h3 := rankOfCoords_lt ds cs hds hcs
        exact h3
      have hG : 1 ≤ gridSize ds := gridSize_pos ds hds
      have hc0 : c0 < d := by simpa using hlt 0 (by simp)
      have hc0m : c0 % d = c0 := Nat.mod_eq_of_lt hc0
      simp only [rankOfCoords, coordsOfRank, List.headD_cons, List.tail_cons, hc0m]
      have hdiv : (c0 * gridSize ds + rankOfCoords ds cs) / gridSize ds
          = c0 := by
        rw [Nat.mul_comm c0 (gridSize ds),
            Nat.mul_add_div (by omega : 0 < gridSize ds), Nat.div_eq_of_lt hrec]
        omega
      have hmod3 : (c0 * gridSize ds + rankOfCoords ds cs) % gridSize ds
          = rankOfCoords ds cs := by
        rw [Nat.mul_comm c0 (gridSize ds), Nat.mul_add_mod,
            Nat.mod_eq_of_lt hrec]
      rw [hdiv, hmod3, hc0m,
          coordsOfRank_rankOfCoords ds cs (by simpa using hlen) hds hcs]
/-!
## Pointwise evaluation of slice assignment and wrap padding
-/

theorem ext_getD {alpha : Type} (d : alpha) (l1 l2 : List alpha)
    (hlen : l1.length = l2.length)
    (h : ∀ j, j < l1.length → l1.getD j d = l2.getD j d) : l1 = l2 := by
  apply List.ext_getElem hlen
  intro j h1 h2
  have h3 := h j h1
  rwa [List.getD_eq_getElem _ _ h1, List.getD_eq_getElem _ _ h2] at h3

theorem sliceLos_length (sls : List PySlice) (shape : List Nat) :
    (sliceLos sls shape).length = min sls.length shape.length := by
  simp [sliceLos, List.length_zipWith]

theorem sliceSet_shape {V : Type} (a src : NDArr V) (sls : List PySlice) :
    (sliceSet a sls src).shape = a.shape := rfl

theorem sliceSet_axis_out {V : Type} (a src : NDArr V) (s : PySlice)
    (n ax : Nat) (idx : List Nat) (hax : ax < n)
    (hviol : ¬ ((s.resolve (a.shape.getD ax 0)).1 ≤ idx.getD ax 0 ∧
                idx.getD ax 0 < (s.resolve (a.shape.getD ax 0)).2)) :
    (sliceSet a ((makeSliceList s n).getD ax []) src).data idx = a.data idx := by
  unfold sliceSet
  dsimp only
  rw [if_neg]
  intro hreg
  obtain ⟨_, h1, h2⟩ := (inRegion_axis_iff s n ax _ idx hax).mp hreg
  exact hviol ⟨h1, h2⟩

theorem sliceSet_axis_in {V : Type} (a b : NDArr V) (s s2 : PySlice)
    (n ax : Nat) (idx : List Nat) (hax : ax < n)
    (hidxlen : idx.length = n) (hashape : a.shape.length = n)
    (hbshape : b.shape.length = n)
    (hoff : ∀ j, j < n → j ≠ ax → idx.getD j 0 < a.shape.getD j 0)
    (hin : (s.resolve (a.shape.getD ax 0)).1 ≤ idx.getD ax 0 ∧
           idx.getD ax 0 < (s.resolve (a.shape.getD ax 0)).2) :
    (sliceSet a ((makeSliceList s n).getD ax [])
        (sliceGet b ((makeSliceList s2 n).getD ax []))).data idx =
      b.data ((List.range n).map (fun j =>
        if j = ax then
          idx.getD ax 0 - (s.resolve (a.shape.getD ax 0)).1 +
            (s2.resolve (b.shape.getD ax 0)).1
        else idx.getD j 0)) := by
  unfold sliceSet sliceGet
  dsimp only
  rw [if_pos ((inRegion_axis_iff s n ax _ idx hax).mpr ⟨hoff, hin.1, hin.2⟩)]
  show b.data _ = b.data _
  congr 1
  apply ext_getD 0
  · rw [List.length_zipWith, List.length_zipWith, sliceLos_length,
        sliceLos_length, makeSliceList_getD_length s n ax hax,
        makeSliceList_getD_length s2 n ax hax, hidxlen, hashape, hbshape,
        List.length_map, List.length_range]
    omega
  · intro j hj
    have hjn : j < n := by
      rw [List.length_zipWith, List.length_zipWith, sliceLos_length,
          sliceLos_length, makeSliceList_getD_length s n ax hax,
          makeSliceList_getD_length s2 n ax hax, hidxlen, hashape, hbshape]
        at hj
      omega
    rw [getD_zipWith_eq _ _ _ _ 0 0 _
        (by rw [List.length_zipWith, sliceLos_length,
              makeSliceList_getD_length s n ax hax, hidxlen, hashape]; omega)
        (by rw [sliceLos_length, makeSliceList_getD_length s2 n ax hax, hbshape]
            omega),
      getD_zipWith_eq _ _ _ _ 0 0 _ (by omega)
        (by rw [sliceLos_length, makeSliceList_getD_length s n ax hax, hashape]
            omega),
      sliceLos_axis_getD s n ax j a.shape hax hjn (by omega),
      sliceLos_axis_getD s2 n ax j b.shape hax hjn (by omega),
      getD_map_eq _ _ _ 0 _ (by simpa using hjn), getD_range_eq _ _ _ hjn]
    by_cases hje : j = ax
    · subst hje
      rw [if_pos rfl, if_pos rfl, if_pos rfl]
    · rw [if_neg hje, if_neg hje, if_neg hje]
      omega

theorem padWrap_inner_eval {V : Type} (dd : DDm) (a : NDArr V) (ax : Nat)
    (idx : List Nat) (hax : ax < dd.nDims) (hidxlen : idx.length = dd.nDims)
    (hashape : a.shape.length = dd.nDims)
    (hSax : a.shape.getD ax 0 = dd.nAt ax + 2 * dd.halo)
    (hN : 1 ≤ dd.nAt ax) (hh : 1 ≤ dd.halo)
    (hoff : ∀ j, j < dd.nDims → j ≠ ax → idx.getD j 0 < a.shape.getD j 0) :
    (padWrap (sliceGet a (dd.innerSl ax)) (dd.paddings ax)).data idx =
      a.data ((List.range dd.nDims).map (fun j =>
        if j = ax then
          (((idx.getD ax 0 : Int) - dd.halo) % (dd.nAt ax : Int)).toNat + dd.halo
        else idx.getD j 0)) := by
  have hhS : dd.halo ≤ a.shape.getD ax 0 := by omega
  unfold padWrap sliceGet DDm.innerSl
  dsimp only
  show a.data _ = a.data _
  congr 1
  have hpadlen : (dd.paddings ax).length = dd.nDims := by
    simp [DDm.paddings]
  have hinlen : ((makeSliceList
      (PySlice.mk (some (dd.halo : Int)) (some (-(dd.halo : Int)))) dd.nDims).getD
        ax []).length = dd.nDims := by
    rw [makeSliceList_getD_length _ _ _ hax]
  have hwidlen : (List.zipWith
      (fun s n => (PySlice.resolve s n).2 - (PySlice.resolve s n).1)
      ((makeSliceList (PySlice.mk (some (dd.halo : Int)) (some (-(dd.halo : Int))))
          dd.nDims).getD ax []) a.shape).length = dd.nDims := by
    rw [List.length_zipWith, hinlen, hashape]
    omega
  apply ext_getD 0
  · rw [List.length_zipWith, List.length_zipWith, List.length_zip, hpadlen,
        sliceLos_length, hinlen, hashape, hwidlen, hidxlen,
        List.length_map, List.length_range]
    omega
  · intro j hj
    have hjn : j < dd.nDims := by
      rw [List.length_zipWith, List.length_zipWith, List.length_zip, hpadlen,
          sliceLos_length, hinlen, hashape, hwidlen, hidxlen] at hj
      omega
    rw [getD_zipWith_eq _ _ _ _ 0 0 _
        (by rw [List.length_zipWith, List.length_zip, hpadlen, hwidlen, hidxlen]
            omega)
        (by rw [sliceLos_length, hinlen, hashape]; omega),
      getD_zipWith_eq _ _ _ _ 0 ((0, 0), 0) _
        (by rw [hidxlen]; omega)
        (by rw [List.length_zip, hpadlen, hwidlen]; omega),
      getD_zip_eq _ _ _ (0, 0) 0 (by rw [hpadlen]; omega) (by rw [hwidlen]; omega),
      getD_zipWith_eq _ _ _ _ default 0 _ (by rw [hinlen]; omega)
        (by rw [hashape]; omega),
      sliceLos_axis_getD _ _ _ _ _ hax hjn (by rw [hashape]; omega),
      makeSliceList_getD_getD _ _ _ _ hax hjn,
      getD_map_eq _ _ _ 0 _ (by simpa using hjn), getD_range_eq _ _ _ hjn]
    have hpadget : (dd.paddings ax).getD j (0, 0) =
        if j = ax then (dd.halo, dd.halo) else (0, 0) := by
      unfold DDm.paddings
      rw [getD_map_eq _ _ _ 0 _ (by simpa using hjn), getD_range_eq _ _ _ hjn]
    rw [hpadget]
    by_cases hje : j = ax
    · subst hje
      rw [if_pos rfl, if_pos rfl, if_pos rfl, if_pos rfl,
          resolve_some_negsome _ _ _ hhS hh hhS]
      have hw : a.shape.getD j 0 - dd.halo - dd.halo = dd.nAt j := by omega
      rw [hw]
    · rw [if_neg hje, if_neg hje, if_neg hje, if_neg hje, resolve_full]
      have hb := hoff j hjn hje
      have hsub0 : a.shape.getD j 0 - 0 = a.shape.getD j 0 := by omega
      rw [hsub0]
      have hmod : ((idx.getD j 0 : Int) - ((0 : Nat) : Int)) %
          ((a.shape.getD j 0 : Nat) : Int) = ((idx.getD j 0 : Nat) : Int) := by
        rw [Nat.cast_zero, sub_zero]
        exact Int.emod_eq_of_lt (by omega) (by omega)
      rw [hmod]
      omega

/-!
## Decomposition view lemmas and halo-sync evaluation
-/

theorem axInner_one (c N : Nat) : axInner c N 1 = N := by
  unfold axInner
  split_ifs <;> omega

theorem sub_shape_length (dd : DDm) (r : Nat)
    (hlen : dd.n_procs.length = dd.n_global.length) :
    (dd.sub r).shape.length = dd.nDims := by
  unfold DDm.sub subdomainOfRank DDm.nDims
  exact shape_length _ _ _ _ (by rw [coordsOfRank_length]; exact hlen) hlen

theorem sub_shape_getD (dd : DDm) (r j : Nat)
    (hlen : dd.n_procs.length = dd.n_global.length) (hj : j < dd.nDims) :
    (dd.sub r).shape.getD j 0 = dd.shapeAtR r j := by
  unfold DDm.sub subdomainOfRank DDm.shapeAtR DDm.innerAtR DDm.coordAt DDm.nAt
    DDm.pAt DDm.nDims at *
  rw [shape_getD _ _ _ _ _ (by rw [coordsOfRank_length]; omega) (by omega) hj]

theorem pAt_default_one (dd : DDm) (ax : Nat)
    (hlen : dd.n_procs.length = dd.n_global.length) (hax : ax < dd.nDims) :
    dd.n_procs.getD ax 1 = dd.pAt ax := by
  unfold DDm.pAt DDm.nDims at *
  rw [List.getD_eq_getElem _ _ (by omega), List.getD_eq_getElem _ _ (by omega)]

theorem nAt_eq (dd : DDm) (ax : Nat) : dd.n_global.getD ax 0 = dd.nAt ax := rfl

theorem syncAxisAll_untouched {V : Type} (dd : DDm) (state : Nat → NDArr V)
    (ax r : Nat) (hlen : dd.n_procs.length = dd.n_global.length)
    (hax : ax < dd.nDims) (hh : 1 ≤ dd.halo) (hN : 1 ≤ dd.nAt ax)
    (hshape : (state r).shape = (dd.sub r).shape)
    (idx : List Nat) (hidxlen : idx.length = dd.nDims)
    (hoff : ∀ j, j < dd.nDims → idx.getD j 0 < dd.shapeAtR r j)
    (hinner : dd.halo ≤ idx.getD ax 0 ∧
      idx.getD ax 0 < dd.halo + dd.innerAtR r ax) :
    (dd.syncAxisAll state ax r).data idx = (state r).data idx := by
  have hSlen : (state r).shape.length = dd.nDims := by
    rw [hshape, sub_shape_length dd r hlen]
  have hSget : ∀ j, j < dd.nDims →
      (state r).shape.getD j 0 = dd.shapeAtR r j := by
    intro j hj
    rw [hshape, sub_shape_getD dd r j hlen hj]
  have hSax : (state r).shape.getD ax 0 = dd.innerAtR r ax + 2 * dd.halo :=
    hSget ax hax
  simp only [DDm.syncAxisAll]
  by_cases hp : dd.n_procs.getD ax 1 = 1
  · rw [if_pos hp]
    simp only [DDm.syncAxisSameProc]
    have hp1 : dd.pAt ax = 1 := by rw [← pAt_default_one dd ax hlen hax, hp]
    have hInner1 : dd.innerAtR r ax = dd.nAt ax := by
      unfold DDm.innerAtR
      rw [hp1, axInner_one]
    by_cases hpad : dd.n_global.getD ax 0 < dd.halo
    · rw [if_pos hpad]
      rw [padWrap_inner_eval dd (state r) ax idx hax hidxlen hSlen
          (by rw [hSax, hInner1]) hN hh
          (fun j hj _ => by rw [hSget j hj]; exact hoff j hj)]
      congr 1
      apply ext_getD 0
      · rw [List.length_map, List.length_range, hidxlen]
      · intro j hj
        rw [List.length_map, List.length_range] at hj
        rw [getD_map_eq _ _ _ 0 _ (by simpa using hj), getD_range_eq _ _ _ hj]
        by_cases hje : j = ax
        · subst hje
          rw [if_pos rfl]
          have hlow : (0 : Int) ≤ (idx.getD j 0 : Int) - dd.halo := by
            have := hinner.1
            omega
          have hhi : (idx.getD j 0 : Int) - dd.halo < (dd.nAt j : Int) := by
            have := hinner.2
            rw [hInner1] at this
            omega
          rw [Int.emod_eq_of_lt hlow hhi]
          omega
        · rw [if_neg hje]
    · rw [if_neg hpad]
      unfold DDm.recvFromNext DDm.recvFromPrev DDm.sendToNext DDm.sendToPrev
      rw [sliceSet_axis_out _ _ _ dd.nDims ax idx hax ?hviol2,
          sliceSet_axis_out _ _ _ dd.nDims ax idx hax ?hviol1]
      case hviol1 =>
        rw [hSax, resolve_negsome_none _ _ hh (by omega)]
        intro hcon
        have := hinner.2
        omega
      case hviol2 =>
        rw [sliceSet_shape, hSax, resolve_none_some]
        intro hcon
        have := hinner.1
        have hmin : min dd.halo (dd.innerAtR r ax + 2 * dd.halo) = dd.halo := by
          omega
        rw [hmin] at hcon
        omega
  · rw [if_neg hp]
    unfold DDm.recvFromNext DDm.recvFromPrev DDm.sendToNext DDm.sendToPrev
    by_cases hp2 : dd.n_procs.getD ax 1 = 2
    · rw [if_pos hp2]
      rw [sliceSet_axis_out _ _ _ dd.nDims ax idx hax ?hviol6,
          sliceSet_axis_out _ _ _ dd.nDims ax idx hax ?hviol5]
      case hviol5 =>
        rw [hSax, resolve_negsome_none _ _ hh (by omega)]
        intro hcon
        have := hinner.2
        omega
      case hviol6 =>
        rw [sliceSet_shape, hSax, resolve_none_some]
        intro hcon
        have := hinner.1
        have hmin : min dd.halo (dd.innerAtR r ax + 2 * dd.halo) = dd.halo := by
          omega
        rw [hmin] at hcon
        omega
    · rw [if_neg hp2]
      rw [sliceSet_axis_out _ _ _ dd.nDims ax idx hax ?hviol4,
          sliceSet_axis_out _ _ _ dd.nDims ax idx hax ?hviol3]
      case hviol3 =>
        rw [hSax, resolve_negsome_none _ _ hh (by omega)]
        intro hcon
        have := hinner.2
        omega
      case hviol4 =>
        rw [sliceSet_shape, hSax, resolve_none_some]
        intro hcon
        have := hinner.1
        have hmin : min dd.halo (dd.innerAtR r ax + 2 * dd.halo) = dd.halo := by
          omega
        rw [hmin] at hcon
        omega

theorem resolveEndpoint_nonneg (m : Nat) (v : Int) (h0 : 0 ≤ v) (hm : v ≤ m) :
    resolveEndpoint m v = v.toNat := by
  unfold resolveEndpoint
  rw [if_neg (by omega)]
  omega

theorem resolveEndpoint_negative (m : Nat) (v : Int) (h0 : v < 0)
    (hm : -v ≤ m) : resolveEndpoint m v = (m + v).toNat := by
  unfold resolveEndpoint
  rw [if_pos h0]
  omega

theorem resolve_sendToNext_eval (m h : Nat) (h1 : 1 ≤ h) (hm : 2 * h ≤ m) :
    (PySlice.mk (some (-(2 * (h : Int)))) (some (-(h : Int)))).resolve m =
      (m - 2 * h, m - h) := by
  show (resolveEndpoint m _, resolveEndpoint m _) = _
  rw [resolveEndpoint_negative _ _ (by omega) (by omega),
      resolveEndpoint_negative _ _ (by omega) (by omega), Prod.mk.injEq]
  constructor <;> omega

theorem resolve_sendToPrev_eval (m h : Nat) (hm : 2 * h ≤ m) :
    (PySlice.mk (some ((h : Int))) (some (2 * (h : Int)))).resolve m =
      (h, 2 * h) := by
  show (resolveEndpoint m _, resolveEndpoint m _) = _
  rw [resolveEndpoint_nonneg _ _ (by omega) (by omega),
      resolveEndpoint_nonneg _ _ (by omega) (by omega), Prod.mk.injEq]
  constructor <;> omega

theorem nprocs_mem_pos (dd : DDm)
    (hlen : dd.n_procs.length = dd.n_global.length)
    (hppos : ∀ j, j < dd.nDims → 1 ≤ dd.pAt j) :
    ∀ d ∈ dd.n_procs, 1 ≤ d := by
  intro d hd
  obtain ⟨j, hj, hjeq⟩ := List.mem_iff_getElem.mp hd
  have h2 := hppos j (by unfold DDm.nDims; omega)
  unfold DDm.pAt at h2
  rw [List.getD_eq_getElem _ _ hj, hjeq] at h2
  exact h2

theorem coordAt_lt (dd : DDm) (r j : Nat)
    (hlen : dd.n_procs.length = dd.n_global.length) (hj : j < dd.nDims)
    (hppos : 1 ≤ dd.pAt j) : dd.coordAt r j < dd.pAt j := by
  unfold DDm.coordAt DDm.pAt DDm.nDims at *
  exact coordsOfRank_lt dd.n_procs r j (by omega) hppos

/-- The rank obtained by shifting the axis coordinate: decoding it
recovers exactly the shifted coordinate list. -/
theorem neighbor_coords (dd : DDm) (r ax v : Nat)
    (hlen : dd.n_procs.length = dd.n_global.length) (hax : ax < dd.nDims)
    (hppos : ∀ j, j < dd.nDims → 1 ≤ dd.pAt j) (hv : v < dd.pAt ax) :
    coordsOfRank dd.n_procs
        (rankOfCoords dd.n_procs ((coordsOfRank dd.n_procs r).set ax v)) =
      (coordsOfRank dd.n_procs r).set ax v := by
  apply coordsOfRank_rankOfCoords
  · rw [List.length_set, coordsOfRank_length]
  · exact nprocs_mem_pos dd hlen hppos
  · intro j hj
    have hjn : j < dd.nDims := by unfold DDm.nDims; omega
    by_cases hje : j = ax
    · subst hje
      rw [getD_set_self _ _ _ _ (by rw [coordsOfRank_length]; omega)]
      exact hv
    · rw [getD_set_ne _ _ _ _ _ (fun hc => hje hc.symm)]
      exact coordAt_lt dd r j hlen hjn (hppos j hjn)

theorem neighbor_rank_lt (dd : DDm) (r ax v : Nat)
    (hlen : dd.n_procs.length = dd.n_global.length) (hax : ax < dd.nDims)
    (hppos : ∀ j, j < dd.nDims → 1 ≤ dd.pAt j) (hv : v < dd.pAt ax) :
    rankOfCoords dd.n_procs ((coordsOfRank dd.n_procs r).set ax v) <
      dd.size := by
  apply rankOfCoords_lt
  · exact nprocs_mem_pos dd hlen hppos
  · intro j hj
    have hjn : j < dd.nDims := by unfold DDm.nDims; omega
    by_cases hje : j = ax
    · subst hje
      rw [getD_set_self _ _ _ _ (by rw [coordsOfRank_length]; omega)]
      exact hv
    · rw [getD_set_ne _ _ _ _ _ (fun hc => hje hc.symm)]
      exact coordAt_lt dd r j hlen hjn (hppos j hjn)

theorem coordAt_neighbor (dd : DDm) (r ax v j : Nat)
    (hlen : dd.n_procs.length = dd.n_global.length) (hax : ax < dd.nDims)
    (hppos : ∀ j, j < dd.nDims → 1 ≤ dd.pAt j) (hv : v < dd.pAt ax) :
    dd.coordAt (rankOfCoords dd.n_procs
        ((coordsOfRank dd.n_procs r).set ax v)) j =
      if j = ax then v else dd.coordAt r j := by
  unfold DDm.coordAt
  rw [neighbor_coords dd r ax v hlen hax hppos hv]
  by_cases hje : j = ax
  · subst hje
    rw [if_pos rfl, getD_set_self _ _ _ _
      (by rw [coordsOfRank_length]; unfold DDm.nDims at hax; omega)]
  · rw [if_neg hje, getD_set_ne _ _ _ _ _ (fun hc => hje hc.symm)]

/-- Membership of the axis-substituted index list in the owned region. -/
theorem ownedIdx_map (dd : DDm) (s ax : Nat) (idx : List Nat) (l : Nat)
    (hax : ax < dd.nDims)
    (hother : ∀ j, j < dd.nDims → j ≠ ax →
      dd.halo ≤ idx.getD j 0 ∧ idx.getD j 0 < dd.halo + dd.innerAtR s j)
    (hl1 : dd.halo ≤ l) (hl2 : l < dd.halo + dd.innerAtR s ax) :
    dd.ownedIdx s ((List.range dd.nDims).map
      (fun j => if j = ax then l else idx.getD j 0)) := by
  constructor
  · rw [List.length_map, List.length_range]
  · intro j hj
    rw [getD_map_eq _ _ _ 0 _ (by simpa using hj), getD_range_eq _ _ _ hj]
    by_cases hje : j = ax
    · subst hje
      rw [if_pos rfl]
      exact ⟨hl1, hl2⟩
    · rw [if_neg hje]
      exact hother j hj hje

theorem l2gIdx_map (dd : DDm) (s ax : Nat) (idx : List Nat) (l : Nat)
    (hax : ax < dd.nDims) :
    dd.l2gIdx s ((List.range dd.nDims).map
        (fun j => if j = ax then l else idx.getD j 0)) =
      (List.range dd.nDims).map
        (fun j => if j = ax then dd.posAtR s ax + l - dd.halo
                  else dd.posAtR s j + idx.getD j 0 - dd.halo) := by
  unfold DDm.l2gIdx
  apply ext_getD 0
  · rw [List.length_map, List.length_map]
  · intro j hj
    rw [List.length_map, List.length_range] at hj
    rw [getD_map_eq _ _ _ 0 _ (by simpa using hj), getD_range_eq _ _ _ hj,
        getD_map_eq _ _ _ 0 _ (by simpa using hj), getD_range_eq _ _ _ hj,
        getD_map_eq _ _ _ 0 _ (by simpa using hj), getD_range_eq _ _ _ hj]
    by_cases hje : j = ax
    · subst hje
      rw [if_pos rfl, if_pos rfl]
    · rw [if_neg hje, if_neg hje]

/-- Single-process axis with `n_global[axis] < halo`: the wrap-mode pad
realises the periodic-wrap value at every in-bounds index. -/
theorem syncSameProc_pad_halo {V : Type} (dd : DDm) (state : Nat → NDArr V)
    (g : List Nat → V) (ax r : Nat)
    (hlen : dd.n_procs.length = dd.n_global.length)
    (hax : ax < dd.nDims) (hh : 1 ≤ dd.halo) (hN : 1 ≤ dd.nAt ax)
    (hp1 : dd.pAt ax = 1) (hpad : dd.n_global.getD ax 0 < dd.halo)
    (hagree : dd.ownedAgree state g) (hr : r < dd.size)
    (idx : List Nat) (hidxlen : idx.length = dd.nDims)
    (hother : ∀ j, j < dd.nDims → j ≠ ax →
      dd.halo ≤ idx.getD j 0 ∧ idx.getD j 0 < dd.halo + dd.innerAtR r j) :
    (dd.syncAxisSameProc (state r) ax).data idx =
      g (dd.haloSourceIdx r ax idx) := by
  have hshape := (hagree r hr).1
  have hSlen : (state r).shape.length = dd.nDims := by
    rw [hshape, sub_shape_length dd r hlen]
  have hSget : ∀ j, j < dd.nDims →
      (state r).shape.getD j 0 = dd.shapeAtR r j := by
    intro j hj
    rw [hshape, sub_shape_getD dd r j hlen hj]
  have hInner1 : dd.innerAtR r ax = dd.nAt ax := by
    unfold DDm.innerAtR
    rw [hp1, axInner_one]
  have hc0 : dd.coordAt r ax = 0 := by
    have := coordAt_lt dd r ax hlen hax (by omega)
    omega
  have hpos0 : dd.posAtR r ax = 0 := by
    unfold DDm.posAtR axPos
    rw [hc0]
    omega
  have hmodbounds : (0 : Int) ≤ ((idx.getD ax 0 : Int) - dd.halo) % (dd.nAt ax : Int) ∧
      ((idx.getD ax 0 : Int) - dd.halo) % (dd.nAt ax : Int) < (dd.nAt ax : Int) := by
    constructor
    · exact Int.emod_nonneg _ (by omega)
    · exact Int.emod_lt_of_pos _ (by omega)
  simp only [DDm.syncAxisSameProc]
  rw [if_pos hpad,
      padWrap_inner_eval dd (state r) ax idx hax hidxlen hSlen
        (by rw [hSget ax hax]; unfold DDm.shapeAtR; rw [hInner1]) hN hh
        (fun j hj hje => by
          rw [hSget j hj]
          have := (hother j hj hje).2
          unfold DDm.shapeAtR
          omega),
      (hagree r hr).2 _ (ownedIdx_map dd r ax idx _ hax hother (by omega)
        (by rw [hInner1]; omega)),
      l2gIdx_map dd r ax idx _ hax]
  congr 1
  unfold DDm.haloSourceIdx DDm.wrapG
  apply List.map_congr_left
  intro j hj
  rw [List.mem_range] at hj
  by_cases hje : j = ax
  · subst hje
    rw [if_pos rfl, if_pos rfl, hpos0]
    have hcast : ((0 : Nat) : Int) + (idx.getD j 0 : Int) - dd.halo =
        (idx.getD j 0 : Int) - dd.halo := by ring
    rw [hcast]
    omega
  · rw [if_neg hje, if_neg hje]

theorem wrapG_of_lt (dd : DDm) (r ax i : Nat)
    (h1 : dd.halo ≤ dd.posAtR r ax + i)
    (h2 : dd.posAtR r ax + i - dd.halo < dd.nAt ax) :
    dd.wrapG r ax i = dd.posAtR r ax + i - dd.halo := by
  unfold DDm.wrapG
  have hcast : ((dd.posAtR r ax : Int) + i - dd.halo) =
      ((dd.posAtR r ax + i - dd.halo : Nat) : Int) := by omega
  rw [hcast, Int.emod_eq_of_lt (by omega) (by omega)]
  omega

theorem wrapG_of_left_wrap (dd : DDm) (r ax i : Nat)
    (h1 : dd.posAtR r ax + i < dd.halo)
    (h2 : dd.halo ≤ dd.posAtR r ax + i + dd.nAt ax) (hN : 1 ≤ dd.nAt ax) :
    dd.wrapG r ax i = dd.posAtR r ax + i + dd.nAt ax - dd.halo := by
  unfold DDm.wrapG
  have hcast : ((dd.posAtR r ax : Int) + i - dd.halo) =
      ((dd.posAtR r ax + i + dd.nAt ax - dd.halo : Nat) : Int) -
        (dd.nAt ax : Int) := by omega
  rw [hcast, Int.emod_sub_cancel, Int.emod_eq_of_lt (by omega) (by omega)]
  omega

theorem wrapG_of_right_wrap (dd : DDm) (r ax i : Nat)
    (h1 : dd.halo ≤ dd.posAtR r ax + i)
    (h2 : dd.nAt ax ≤ dd.posAtR r ax + i - dd.halo)
    (h3 : dd.posAtR r ax + i - dd.halo < 2 * dd.nAt ax) :
    dd.wrapG r ax i = dd.posAtR r ax + i - dd.halo - dd.nAt ax := by
  unfold DDm.wrapG
  have hcast : ((dd.posAtR r ax : Int) + i - dd.halo) =
      ((dd.posAtR r ax + i - dd.halo - dd.nAt ax : Nat) : Int) +
        (dd.nAt ax : Int) := by omega
  have hsh : (((dd.posAtR r ax + i - dd.halo - dd.nAt ax : Nat) : Int) +
      (dd.nAt ax : Int)) % (dd.nAt ax : Int) =
      (((dd.posAtR r ax + i - dd.halo - dd.nAt ax : Nat) : Int) -
        (dd.nAt ax : Int)) % (dd.nAt ax : Int) := by
    rw [Int.emod_sub_cancel]
    have h4 := Int.add_mul_emod_self_left
      ((dd.posAtR r ax + i - dd.halo - dd.nAt ax : Nat) : Int)
      (dd.nAt ax : Int) 1
    simpa using h4
  rw [hcast, hsh, Int.emod_sub_cancel, Int.emod_eq_of_lt (by omega) (by omega)]
  omega

/-- Single-process axis with `n_global[axis] >= halo`: the in-place
periodic wrap fills both halo sides with the wrapped owned values. -/
theorem syncSameProc_normal_halo {V : Type} (dd : DDm) (state : Nat → NDArr V)
    (g : List Nat → V) (ax r : Nat)
    (hlen : dd.n_procs.length = dd.n_global.length)
    (hax : ax < dd.nDims) (hh : 1 ≤ dd.halo)
    (hp1 : dd.pAt ax = 1) (hnopad : dd.halo ≤ dd.n_global.getD ax 0)
    (hagree : dd.ownedAgree state g) (hr : r < dd.size)
    (idx : List Nat) (hidxlen : idx.length = dd.nDims)
    (hother : ∀ j, j < dd.nDims → j ≠ ax →
      dd.halo ≤ idx.getD j 0 ∧ idx.getD j 0 < dd.halo + dd.innerAtR r j)
    (hhalopos : idx.getD ax 0 < dd.halo ∨
      (dd.halo + dd.innerAtR r ax ≤ idx.getD ax 0 ∧
       idx.getD ax 0 < 2 * dd.halo + dd.innerAtR r ax)) :
    (dd.syncAxisSameProc (state r) ax).data idx =
      g (dd.haloSourceIdx r ax idx) := by
  have hshape := (hagree r hr).1
  have hSlen : (state r).shape.length = dd.nDims := by
    rw [hshape, sub_shape_length dd r hlen]
  have hSget : ∀ j, j < dd.nDims →
      (state r).shape.getD j 0 = dd.shapeAtR r j := fun j hj => by
    rw [hshape, sub_shape_getD dd r j hlen hj]
  have hInner1 : dd.innerAtR r ax = dd.nAt ax := by
    unfold DDm.innerAtR
    rw [hp1, axInner_one]
  have hNax : dd.halo ≤ dd.nAt ax := hnopad
  have hN1 : (1 : Nat) ≤ dd.nAt ax := by omega
  have hc0 : dd.coordAt r ax = 0 := by
    have := coordAt_lt dd r ax hlen hax (by omega)
    omega
  have hpos0 : dd.posAtR r ax = 0 := by
    unfold DDm.posAtR axPos
    rw [hc0]
    omega
  have hSax : (state r).shape.getD ax 0 = dd.nAt ax + 2 * dd.halo := by
    rw [hSget ax hax]
    unfold DDm.shapeAtR
    rw [hInner1]
  have hoffb : ∀ j, j < dd.nDims → j ≠ ax →
      idx.getD j 0 < (state r).shape.getD j 0 := fun j hj hje => by
    rw [hSget j hj]
    have := (hother j hj hje).2
    unfold DDm.shapeAtR
    omega
  simp only [DDm.syncAxisSameProc]
  rw [if_neg (by omega : ¬ dd.n_global.getD ax 0 < dd.halo)]
  unfold DDm.recvFromNext DDm.recvFromPrev DDm.sendToNext DDm.sendToPrev
  rcases hhalopos with hL | hR
  · rw [sliceSet_axis_in _ _ _ _ dd.nDims ax idx hax hidxlen
      (by rw [sliceSet_shape]; exact hSlen)
      (by rw [sliceSet_shape]; exact hSlen)
      (fun j hj hje => by rw [sliceSet_shape]; exact hoffb j hj hje)
      (by rw [sliceSet_shape, hSax, resolve_none_some]
          dsimp only
          constructor <;> omega)]
    simp only [sliceSet_shape, hSax, resolve_none_some,
      resolve_sendToNext_eval (dd.nAt ax + 2 * dd.halo) dd.halo hh (by omega),
      Nat.add_sub_cancel, Nat.sub_zero]
    rw [sliceSet_axis_out _ _ _ dd.nDims ax _ hax
      (by rw [hSax, resolve_negsome_none _ _ hh (by omega)]
          rw [getD_map_eq _ _ _ 0 _ (by simpa using hax),
              getD_range_eq _ _ _ hax, if_pos rfl]
          intro hcon
          omega)]
    rw [(hagree r hr).2 _ (ownedIdx_map dd r ax idx _ hax hother (by omega)
        (by rw [hInner1]; omega)),
      l2gIdx_map dd r ax idx _ hax]
    congr 1
    unfold DDm.haloSourceIdx
    apply List.map_congr_left
    intro j hj
    rw [List.mem_range] at hj
    by_cases hje : j = ax
    · subst hje
      rw [if_pos rfl, if_pos rfl,
          wrapG_of_left_wrap dd r j _ (by omega) (by omega) hN1]
      omega
    · rw [if_neg hje, if_neg hje]
  · rw [sliceSet_axis_out _ _ _ dd.nDims ax _ hax
      (by rw [sliceSet_shape, hSax, resolve_none_some]
          dsimp only
          intro hcon
          have hmin : min dd.halo (dd.nAt ax + 2 * dd.halo) = dd.halo := by
            omega
          rw [hmin] at hcon
          omega)]
    rw [sliceSet_axis_in _ _ _ _ dd.nDims ax idx hax hidxlen hSlen hSlen
      hoffb
      (by rw [hSax, resolve_negsome_none _ _ hh (by omega)]
          rw [hInner1] at hR
          constructor <;> omega)]
    simp only [hSax, resolve_negsome_none (dd.nAt ax + 2 * dd.halo) dd.halo hh
        (by omega),
      resolve_sendToPrev_eval (dd.nAt ax + 2 * dd.halo) dd.halo (by omega)]
    rw [(hagree r hr).2 _ (ownedIdx_map dd r ax idx _ hax hother (by omega)
        (by rw [hInner1]
            rw [hInner1] at hR
            omega)),
      l2gIdx_map dd r ax idx _ hax]
    congr 1
    unfold DDm.haloSourceIdx
    apply List.map_congr_left
    intro j hj
    rw [List.mem_range] at hj
    by_cases hje : j = ax
    · subst hje
      rw [if_pos rfl, if_pos rfl]
      rw [hInner1] at hR
      rw [wrapG_of_right_wrap dd r j _ (by omega) (by omega) (by omega)]
      omega
    · rw [if_neg hje, if_neg hje]

theorem axBase_le_axInner (c N p : Nat) : N / p ≤ axInner c N p := by
  unfold axInner
  split_ifs <;> omega

/-- Three or more processes on the axis: the two neighbours are distinct,
the message pairing is the intended one, and after the exchange the halo
cells hold the periodic-wrap values of the global field. -/
theorem syncMulti_halo {V : Type} (dd : DDm) (state : Nat → NDArr V)
    (g : List Nat → V) (ax r : Nat)
    (hlen : dd.n_procs.length = dd.n_global.length)
    (hax : ax < dd.nDims) (hh : 1 ≤ dd.halo)
    (hNall : ∀ j, j < dd.nDims → 1 ≤ dd.nAt j)
    (hppos : ∀ j, j < dd.nDims → 1 ≤ dd.pAt j)
    (hp3 : 3 ≤ dd.pAt ax)
    (hbase : dd.halo ≤ dd.nAt ax / dd.pAt ax)
    (hagree : dd.ownedAgree state g) (hr : r < dd.size)
    (idx : List Nat) (hidxlen : idx.length = dd.nDims)
    (hother : ∀ j, j < dd.nDims → j ≠ ax →
      dd.halo ≤ idx.getD j 0 ∧ idx.getD j 0 < dd.halo + dd.innerAtR r j)
    (hhalopos : idx.getD ax 0 < dd.halo ∨
      (dd.halo + dd.innerAtR r ax ≤ idx.getD ax 0 ∧
       idx.getD ax 0 < 2 * dd.halo + dd.innerAtR r ax)) :
    (dd.syncAxisAll state ax r).data idx = g (dd.haloSourceIdx r ax idx) := by
  have hshape := (hagree r hr).1
  have hSlen : (state r).shape.length = dd.nDims := by
    rw [hshape, sub_shape_length dd r hlen]
  have hSget : ∀ j, j < dd.nDims →
      (state r).shape.getD j 0 = dd.shapeAtR r j := fun j hj => by
    rw [hshape, sub_shape_getD dd r j hlen hj]
  have hSax : (state r).shape.getD ax 0 = dd.innerAtR r ax + 2 * dd.halo :=
    hSget ax hax
  have hoffb : ∀ j, j < dd.nDims → j ≠ ax →
      idx.getD j 0 < (state r).shape.getD j 0 := fun j hj hje => by
    rw [hSget j hj]
    have := (hother j hj hje).2
    unfold DDm.shapeAtR
    omega
  have hNd := Nat.div_add_mod (dd.nAt ax) (dd.pAt ax)
  have hbN : dd.nAt ax / dd.pAt ax ≤ dd.nAt ax := Nat.div_le_self _ _
  have hca := coordAt_lt dd r ax hlen hax (by omega)
  have hinner_r_base := axBase_le_axInner (dd.coordAt r ax) (dd.nAt ax)
    (dd.pAt ax)
  have hposr : dd.posAtR r ax
      = dd.coordAt r ax * (dd.nAt ax / dd.pAt ax) := rfl
  have hp2 : 2 ≤ dd.pAt ax := by omega
  simp only [DDm.syncAxisAll]
  rw [if_neg (by rw [pAt_default_one dd ax hlen hax]; omega)]
  rw [pAt_default_one dd ax hlen hax]
  rw [if_neg (show ¬dd.pAt ax = 2 by omega)]
  have hfold : (coordsOfRank dd.n_procs r).getD ax 0 = dd.coordAt r ax := rfl
  rw [hfold]
  unfold DDm.recvFromNext DDm.recvFromPrev DDm.sendToNext DDm.sendToPrev
  rcases hhalopos with hL | hR
  · -- left halo: the value comes from the previous rank along the axis
    set vprev := (dd.coordAt r ax + dd.pAt ax - 1) % dd.pAt ax with hvprevdef
    have hvprev : vprev < dd.pAt ax := Nat.mod_lt _ (by omega)
    set prevR := rankOfCoords dd.n_procs
      ((coordsOfRank dd.n_procs r).set ax vprev) with hprevRdef
    have hprevlt : prevR < dd.size :=
      neighbor_rank_lt dd r ax vprev hlen hax hppos hvprev
    have hprevAgree := hagree prevR hprevlt
    have hcprev : dd.coordAt prevR ax = vprev := by
      rw [hprevRdef, coordAt_neighbor dd r ax vprev ax hlen hax hppos hvprev,
          if_pos rfl]
    have hcprevoff : ∀ j, j < dd.nDims → j ≠ ax →
        dd.coordAt prevR j = dd.coordAt r j := fun j _ hje => by
      rw [hprevRdef, coordAt_neighbor dd r ax vprev j hlen hax hppos hvprev,
          if_neg hje]
    have hprevInner : ∀ j, j < dd.nDims → j ≠ ax →
        dd.innerAtR prevR j = dd.innerAtR r j := fun j hj hje => by
      unfold DDm.innerAtR
      rw [hcprevoff j hj hje]
    have hprevPos : ∀ j, j < dd.nDims → j ≠ ax →
        dd.posAtR prevR j = dd.posAtR r j := fun j hj hje => by
      unfold DDm.posAtR
      rw [hcprevoff j hj hje]
    have hprevInnerAx : dd.nAt ax / dd.pAt ax ≤ dd.innerAtR prevR ax :=
      axBase_le_axInner _ _ _
    have hSprevax : (state prevR).shape.getD ax 0
        = dd.innerAtR prevR ax + 2 * dd.halo := by
      rw [hprevAgree.1]
      exact sub_shape_getD dd prevR ax hlen hax
    have hSprevlen : (state prevR).shape.length = dd.nDims := by
      rw [hprevAgree.1, sub_shape_length dd prevR hlen]
    have hres1 : (PySlice.mk none (some (dd.halo : Int))).resolve
        ((state r).shape.getD ax 0) = (0, dd.halo) := by
      rw [hSax, resolve_none_some, Prod.mk.injEq]
      constructor <;> omega
    have hres2 : (PySlice.mk (some (-(2 * (dd.halo : Int))))
        (some (-(dd.halo : Int)))).resolve ((state prevR).shape.getD ax 0)
        = (dd.innerAtR prevR ax, dd.innerAtR prevR ax + dd.halo) := by
      rw [hSprevax, resolve_sendToNext_eval _ _ hh (by omega), Prod.mk.injEq]
      constructor <;> omega
    refine (sliceSet_axis_in _ _ _ _ dd.nDims ax idx hax hidxlen
      ?_ ?_ ?_ ?_).trans ?_
    · exact hSlen
    · exact hSprevlen
    · exact hoffb
    · rw [sliceSet_shape, hSax, resolve_none_some]
      exact ⟨Nat.zero_le _,
        show idx.getD ax 0 <
          min dd.halo (dd.innerAtR r ax + 2 * dd.halo) by omega⟩
    rw [sliceSet_shape, hres1, hres2]
    dsimp only
    simp only [Nat.sub_zero]
    rw [(hprevAgree.2 _ (ownedIdx_map dd prevR ax idx
        (idx.getD ax 0 + dd.innerAtR prevR ax) hax
        (fun j hj hje => by rw [hprevInner j hj hje]; exact hother j hj hje)
        (by omega) (by omega))),
      l2gIdx_map dd prevR ax idx _ hax]
    congr 1
    unfold DDm.haloSourceIdx
    apply List.map_congr_left
    intro j hj
    rw [List.mem_range] at hj
    by_cases hje : j = ax
    · subst hje
      rw [if_pos rfl, if_pos rfl]
      have hIP : dd.innerAtR prevR j
          = dd.nAt j / dd.pAt j +
            (if vprev = dd.pAt j - 1 then dd.nAt j % dd.pAt j else 0) := by
        unfold DDm.innerAtR axInner
        rw [hcprev]
      have hPP : dd.posAtR prevR j = vprev * (dd.nAt j / dd.pAt j) := by
        unfold DDm.posAtR axPos
        rw [hcprev]
      by_cases hca0 : dd.coordAt r j = 0
      · have hmodv : vprev = dd.pAt j - 1 := by
          rw [hvprevdef, hca0]
          have h0 := Nat.mod_eq_of_lt
            (show 0 + dd.pAt j - 1 < dd.pAt j by omega)
          omega
        rw [hIP, hPP, hmodv, if_pos rfl]
        have hposr0 : dd.posAtR r j = 0 := by
          rw [hposr, hca0]
          omega
        rw [wrapG_of_left_wrap dd r j _ (by rw [hposr0]; omega)
          (by rw [hposr0]; omega) (by have := hNall j hj; omega)]
        have hexp : (dd.pAt j - 1) * (dd.nAt j / dd.pAt j) +
            (dd.nAt j / dd.pAt j) = dd.pAt j * (dd.nAt j / dd.pAt j) := by
          have h1 : dd.pAt j - 1 + 1 = dd.pAt j := by omega
          calc (dd.pAt j - 1) * (dd.nAt j / dd.pAt j) + (dd.nAt j / dd.pAt j)
              = (dd.pAt j - 1 + 1) * (dd.nAt j / dd.pAt j) := by ring
            _ = dd.pAt j * (dd.nAt j / dd.pAt j) := by rw [h1]
        rw [hposr0]
        omega
      · have hmodv : vprev = dd.coordAt r j - 1 := by
          rw [hvprevdef]
          have h1 : dd.coordAt r j + dd.pAt j - 1
              = dd.pAt j + (dd.coordAt r j - 1) := by omega
          rw [h1, Nat.add_mod_left, Nat.mod_eq_of_lt (by omega)]
        rw [hIP, hPP, hmodv, if_neg (by omega)]
        have hble : dd.nAt j / dd.pAt j ≤
            dd.coordAt r j * (dd.nAt j / dd.pAt j) :=
          Nat.le_mul_of_pos_left _ (by omega)
        have hexp : (dd.coordAt r j - 1) * (dd.nAt j / dd.pAt j) +
            (dd.nAt j / dd.pAt j)
            = dd.coordAt r j * (dd.nAt j / dd.pAt j) := by
          have h1 : dd.coordAt r j - 1 + 1 = dd.coordAt r j := by omega
          calc (dd.coordAt r j - 1) * (dd.nAt j / dd.pAt j) +
              (dd.nAt j / dd.pAt j)
              = (dd.coordAt r j - 1 + 1) * (dd.nAt j / dd.pAt j) := by ring
            _ = dd.coordAt r j * (dd.nAt j / dd.pAt j) := by rw [h1]
        have hmul2 : dd.coordAt r j * (dd.nAt j / dd.pAt j) ≤
            (dd.pAt j - 1) * (dd.nAt j / dd.pAt j) :=
          Nat.mul_le_mul_right _ (by omega)
        have hexp2 : (dd.pAt j - 1) * (dd.nAt j / dd.pAt j) +
            (dd.nAt j / dd.pAt j) = dd.pAt j * (dd.nAt j / dd.pAt j) := by
          have h1 : dd.pAt j - 1 + 1 = dd.pAt j := by omega
          calc (dd.pAt j - 1) * (dd.nAt j / dd.pAt j) + (dd.nAt j / dd.pAt j)
              = (dd.pAt j - 1 + 1) * (dd.nAt j / dd.pAt j) := by ring
            _ = dd.pAt j * (dd.nAt j / dd.pAt j) := by rw [h1]
        rw [wrapG_of_lt dd r j _ (by rw [hposr]; omega) (by rw [hposr]; omega),
            hposr]
        omega
    · rw [if_neg hje, if_neg hje, hprevPos j hj hje]
  · -- right halo: the value comes from the next rank along the axis
    set vnext := (dd.coordAt r ax + 1) % dd.pAt ax with hvnextdef
    have hvnext : vnext < dd.pAt ax := Nat.mod_lt _ (by omega)
    set nextR := rankOfCoords dd.n_procs
      ((coordsOfRank dd.n_procs r).set ax vnext) with hnextRdef
    have hnextlt : nextR < dd.size :=
      neighbor_rank_lt dd r ax vnext hlen hax hppos hvnext
    have hnextAgree := hagree nextR hnextlt
    have hcnext : dd.coordAt nextR ax = vnext := by
      rw [hnextRdef, coordAt_neighbor dd r ax vnext ax hlen hax hppos hvnext,
          if_pos rfl]
    have hcnextoff : ∀ j, j < dd.nDims → j ≠ ax →
        dd.coordAt nextR j = dd.coordAt r j := fun j _ hje => by
      rw [hnextRdef, coordAt_neighbor dd r ax vnext j hlen hax hppos hvnext,
          if_neg hje]
    have hnextInner : ∀ j, j < dd.nDims → j ≠ ax →
        dd.innerAtR nextR j = dd.innerAtR r j := fun j hj hje => by
      unfold DDm.innerAtR
      rw [hcnextoff j hj hje]
    have hnextPos : ∀ j, j < dd.nDims → j ≠ ax →
        dd.posAtR nextR j = dd.posAtR r j := fun j hj hje => by
      unfold DDm.posAtR
      rw [hcnextoff j hj hje]
    have hnextInnerAx : dd.nAt ax / dd.pAt ax ≤ dd.innerAtR nextR ax :=
      axBase_le_axInner _ _ _
    have hSnextax : (state nextR).shape.getD ax 0
        = dd.innerAtR nextR ax + 2 * dd.halo := by
      rw [hnextAgree.1]
      exact sub_shape_getD dd nextR ax hlen hax
    have hSnextlen : (state nextR).shape.length = dd.nDims := by
      rw [hnextAgree.1, sub_shape_length dd nextR hlen]
    have hres1 : (PySlice.mk (some (-(dd.halo : Int))) none).resolve
        ((state r).shape.getD ax 0)
        = (dd.innerAtR r ax + dd.halo, dd.innerAtR r ax + 2 * dd.halo) := by
      rw [hSax, resolve_negsome_none _ _ hh (by omega), Prod.mk.injEq]
      constructor <;> omega
    have hres2 : (PySlice.mk (some (dd.halo : Int))
        (some (2 * (dd.halo : Int)))).resolve ((state nextR).shape.getD ax 0)
        = (dd.halo, 2 * dd.halo) := by
      rw [hSnextax, resolve_sendToPrev_eval _ _ (by omega)]
    refine Eq.trans (sliceSet_axis_out _ _ _ dd.nDims ax idx hax ?_) ?_
    · rw [sliceSet_shape, hSax, resolve_none_some]
      intro hcon
      have hcon2 := hcon.2
      have hmin : min dd.halo (dd.innerAtR r ax + 2 * dd.halo)
          = dd.halo := by omega
      rw [show ((0 : Nat), min dd.halo (dd.innerAtR r ax + 2 * dd.halo)).2
            = min dd.halo (dd.innerAtR r ax + 2 * dd.halo) from rfl,
          hmin] at hcon2
      omega
    refine (sliceSet_axis_in _ _ _ _ dd.nDims ax idx hax hidxlen
      ?_ ?_ ?_ ?_).trans ?_
    · exact hSlen
    · exact hSnextlen
    · exact hoffb
    · rw [hres1]
      exact ⟨show dd.innerAtR r ax + dd.halo ≤ idx.getD ax 0 by omega,
        show idx.getD ax 0 < dd.innerAtR r ax + 2 * dd.halo by omega⟩
    rw [hres1, hres2]
    dsimp only
    rw [(hnextAgree.2 _ (ownedIdx_map dd nextR ax idx
        (idx.getD ax 0 - (dd.innerAtR r ax + dd.halo) + dd.halo) hax
        (fun j hj hje => by rw [hnextInner j hj hje]; exact hother j hj hje)
        (by omega) (by omega))),
      l2gIdx_map dd nextR ax idx _ hax]
    congr 1
    unfold DDm.haloSourceIdx
    apply List.map_congr_left
    intro j hj
    rw [List.mem_range] at hj
    by_cases hje : j = ax
    · subst hje
      rw [if_pos rfl, if_pos rfl]
      have hIr : dd.innerAtR r j
          = dd.nAt j / dd.pAt j +
            (if dd.coordAt r j = dd.pAt j - 1 then dd.nAt j % dd.pAt j
             else 0) := rfl
      have hPP : dd.posAtR nextR j = vnext * (dd.nAt j / dd.pAt j) := by
        unfold DDm.posAtR axPos
        rw [hcnext]
      by_cases hca1 : dd.coordAt r j = dd.pAt j - 1
      · have hmodv : vnext = 0 := by
          rw [hvnextdef]
          have h1 : dd.coordAt r j + 1 = dd.pAt j := by omega
          rw [h1, Nat.mod_self]
        have hIval : dd.innerAtR r j
            = dd.nAt j / dd.pAt j + dd.nAt j % dd.pAt j := by
          rw [hIr, if_pos hca1]
        have hexp2 : (dd.pAt j - 1) * (dd.nAt j / dd.pAt j) +
            (dd.nAt j / dd.pAt j) = dd.pAt j * (dd.nAt j / dd.pAt j) := by
          have h1 : dd.pAt j - 1 + 1 = dd.pAt j := by omega
          calc (dd.pAt j - 1) * (dd.nAt j / dd.pAt j) + (dd.nAt j / dd.pAt j)
              = (dd.pAt j - 1 + 1) * (dd.nAt j / dd.pAt j) := by ring
            _ = dd.pAt j * (dd.nAt j / dd.pAt j) := by rw [h1]
        have hposv : dd.posAtR r j = (dd.pAt j - 1) * (dd.nAt j / dd.pAt j) := by
          rw [hposr, hca1]
        rw [hPP, hmodv]
        rw [hIval] at hR
        rw [wrapG_of_right_wrap dd r j _ (by rw [hposv]; omega)
          (by rw [hposv]; omega) (by rw [hposv]; omega), hposv, hIval]
        omega
      · have hmodv : vnext = dd.coordAt r j + 1 :=
          hvnextdef.trans (Nat.mod_eq_of_lt (by omega))
        have hIval : dd.innerAtR r j = dd.nAt j / dd.pAt j := by
          rw [hIr, if_neg hca1]
          omega
        have hexpA : dd.coordAt r j * (dd.nAt j / dd.pAt j) +
            (dd.nAt j / dd.pAt j)
            = (dd.coordAt r j + 1) * (dd.nAt j / dd.pAt j) := by ring
        have hexpB : (dd.coordAt r j + 1) * (dd.nAt j / dd.pAt j) +
            (dd.nAt j / dd.pAt j)
            = (dd.coordAt r j + 2) * (dd.nAt j / dd.pAt j) := by ring
        have hmulB : (dd.coordAt r j + 2) * (dd.nAt j / dd.pAt j) ≤
            dd.pAt j * (dd.nAt j / dd.pAt j) :=
          Nat.mul_le_mul_right _ (by omega)
        rw [hPP, hmodv]
        rw [hIval] at hR
        rw [wrapG_of_lt dd r j _ (by rw [hposr]; omega)
          (by rw [hposr]; omega), hposr, hIval]
        omega
    · rw [if_neg hje, if_neg hje, hnextPos j hj hje]

theorem paddings_length (dd : DDm) (ax : Nat) :
    (dd.paddings ax).length = dd.nDims := by
  unfold DDm.paddings
  rw [List.length_map, List.length_range]

theorem paddings_getD (dd : DDm) (ax j : Nat) (hj : j < dd.nDims) :
    (dd.paddings ax).getD j (0, 0) =
      if j = ax then (dd.halo, dd.halo) else (0, 0) := by
  unfold DDm.paddings
  rw [getD_map_eq _ _ _ 0 _ (by rw [List.length_range]; exact hj),
      getD_range_eq _ _ _ hj]

/-- One axis synchronisation keeps every rank's local array at its
subdomain's shape (also through the wrap-mode pad branch). -/
theorem syncAxisAll_shape {V : Type} (dd : DDm) (state : Nat → NDArr V)
    (ax r : Nat) (hlen : dd.n_procs.length = dd.n_global.length)
    (hax : ax < dd.nDims) (hh : 1 ≤ dd.halo)
    (hshape : (state r).shape = (dd.sub r).shape) :
    (dd.syncAxisAll state ax r).shape = (dd.sub r).shape := by
  have hSlen : (state r).shape.length = dd.nDims := by
    rw [hshape, sub_shape_length dd r hlen]
  have hSget : ∀ j, j < dd.nDims →
      (state r).shape.getD j 0 = dd.shapeAtR r j := fun j hj => by
    rw [hshape, sub_shape_getD dd r j hlen hj]
  simp only [DDm.syncAxisAll]
  split_ifs with hp hp2
  · unfold DDm.syncAxisSameProc
    split_ifs with hpad
    · have hslen : (sliceGet (state r) (dd.innerSl ax)).shape.length
          = dd.nDims := by
        unfold sliceGet DDm.innerSl
        dsimp only
        rw [List.length_zipWith, makeSliceList_getD_length _ _ _ hax, hSlen]
        omega
      have hsget : ∀ j, j < dd.nDims →
          (sliceGet (state r) (dd.innerSl ax)).shape.getD j 0 =
            if j = ax then dd.innerAtR r ax else dd.shapeAtR r j := by
        intro j hj
        unfold sliceGet DDm.innerSl
        dsimp only
        rw [getD_zipWith_eq _ _ _ _ default 0 _
            (by rw [makeSliceList_getD_length _ _ _ hax]; exact hj)
            (by rw [hSlen]; exact hj),
          makeSliceList_getD_getD _ _ _ _ hax hj, hSget j hj]
        by_cases hje : j = ax
        · rw [if_pos hje, if_pos hje, hje]
          rw [resolve_some_negsome _ _ _ (by unfold DDm.shapeAtR; omega) hh
              (by unfold DDm.shapeAtR; omega)]
          dsimp only
          unfold DDm.shapeAtR
          omega
        · rw [if_neg hje, if_neg hje, resolve_full]
          show dd.shapeAtR r j - 0 = dd.shapeAtR r j
          omega
      apply ext_getD 0
      · unfold padWrap
        dsimp only
        rw [List.length_zipWith, hslen, paddings_length,
            sub_shape_length dd r hlen]
        omega
      · intro j hj
        have hjn : j < dd.nDims := by
          unfold padWrap at hj
          dsimp only at hj
          rw [List.length_zipWith, hslen, paddings_length] at hj
          omega
        unfold padWrap
        dsimp only
        rw [getD_zipWith_eq _ _ _ _ 0 (0, 0) _ (by rw [hslen]; exact hjn)
            (by rw [paddings_length]; exact hjn),
          hsget j hjn, paddings_getD dd ax j hjn,
          sub_shape_getD dd r j hlen hjn]
        by_cases hje : j = ax
        · rw [if_pos hje, if_pos hje, hje]
          dsimp only
          unfold DDm.shapeAtR
          omega
        · rw [if_neg hje, if_neg hje]
          dsimp only
          omega
    · exact hshape
  · exact hshape
  · exact hshape

/-- One axis synchronisation never changes the owned region, so the state
keeps agreeing with the global field after it. -/
theorem syncAxisAll_agree {V : Type} (dd : DDm) (state : Nat → NDArr V)
    (g : List Nat → V) (ax : Nat)
    (hlen : dd.n_procs.length = dd.n_global.length)
    (hax : ax < dd.nDims) (hh : 1 ≤ dd.halo) (hN : 1 ≤ dd.nAt ax)
    (hagree : dd.ownedAgree state g) :
    dd.ownedAgree (dd.syncAxisAll state ax) g := by
  intro r hr
  obtain ⟨hshape, hval⟩ := hagree r hr
  refine ⟨syncAxisAll_shape dd state ax r hlen hax hh hshape, ?_⟩
  intro idx hidx
  rw [syncAxisAll_untouched dd state ax r hlen hax hh hN hshape idx hidx.1
      (fun j hj => by
        have h2 := (hidx.2 j hj).2
        show idx.getD j 0 < dd.innerAtR r j + 2 * dd.halo
        omega)
      ⟨(hidx.2 ax hax).1, (hidx.2 ax hax).2⟩]
  exact hval idx hidx

/-- Synchronising one axis establishes the wrapped global value in both
halo bands of that axis, whatever the number of processes on it (pad
branch, single-process wrap branch, or paired neighbour exchange). -/
theorem syncAxis_halo {V : Type} (dd : DDm) (state : Nat → NDArr V)
    (g : List Nat → V) (ax r : Nat)
    (hlen : dd.n_procs.length = dd.n_global.length)
    (hax : ax < dd.nDims) (hh : 1 ≤ dd.halo)
    (hNall : ∀ j, j < dd.nDims → 1 ≤ dd.nAt j)
    (hppos : ∀ j, j < dd.nDims → 1 ≤ dd.pAt j)
    (hvalid : 2 ≤ dd.pAt ax → dd.halo ≤ dd.nAt ax / dd.pAt ax)
    (hpne2 : dd.pAt ax ≠ 2)
    (hagree : dd.ownedAgree state g) (hr : r < dd.size)
    (idx : List Nat) (hidxlen : idx.length = dd.nDims)
    (hother : ∀ j, j < dd.nDims → j ≠ ax →
      dd.halo ≤ idx.getD j 0 ∧ idx.getD j 0 < dd.halo + dd.innerAtR r j)
    (hhalopos : idx.getD ax 0 < dd.halo ∨
      (dd.halo + dd.innerAtR r ax ≤ idx.getD ax 0 ∧
       idx.getD ax 0 < 2 * dd.halo + dd.innerAtR r ax)) :
    (dd.syncAxisAll state ax r).data idx = g (dd.haloSourceIdx r ax idx) := by
  by_cases hp1 : dd.pAt ax = 1
  · have hstep : dd.syncAxisAll state ax r
        = dd.syncAxisSameProc (state r) ax := by
      simp only [DDm.syncAxisAll]
      rw [if_pos (by rw [pAt_default_one dd ax hlen hax]; exact hp1)]
    rw [hstep]
    by_cases hpad : dd.n_global.getD ax 0 < dd.halo
    · exact syncSameProc_pad_halo dd state g ax r hlen hax hh (hNall ax hax)
        hp1 hpad hagree hr idx hidxlen hother
    · exact syncSameProc_normal_halo dd state g ax r hlen hax hh hp1
        (by omega) hagree hr idx hidxlen hother hhalopos
  · have hp3 : 3 ≤ dd.pAt ax := by
      have := hppos ax hax
      omega
    exact syncMulti_halo dd state g ax r hlen hax hh hNall hppos hp3
      (hvalid (by omega)) hagree hr idx hidxlen hother hhalopos

/-- Folding the per-axis synchronisation over axes not containing `axis`
never touches a cell whose coordinate along every one of those axes lies
in the owned band. -/
theorem syncFold_untouched {V : Type} (dd : DDm) (g : List Nat → V)
    (flat : List Nat) (axis r : Nat) (idx : List Nat)
    (hlen : dd.n_procs.length = dd.n_global.length)
    (hh : 1 ≤ dd.halo)
    (hNall : ∀ j, j < dd.nDims → 1 ≤ dd.nAt j)
    (hr : r < dd.size) (haxis : axis < dd.nDims)
    (hidxlen : idx.length = dd.nDims)
    (hother : ∀ j, j < dd.nDims → j ≠ axis →
      dd.halo ≤ idx.getD j 0 ∧ idx.getD j 0 < dd.halo + dd.innerAtR r j)
    (haxlt : idx.getD axis 0 < 2 * dd.halo + dd.innerAtR r axis) :
    ∀ (l : List Nat) (state : Nat → NDArr V), dd.ownedAgree state g →
      (∀ a, a ∈ l → a < dd.nDims) → axis ∉ l →
      ((l.foldl (fun st ax => if ax ∈ flat then st else dd.syncAxisAll st ax)
          state) r).data idx = (state r).data idx := by
  intro l
  induction l with
  | nil => intro state _ _ _; rfl
  | cons a l ih =>
    intro state hagree hmem hnmem
    rw [List.foldl_cons]
    have ha : a < dd.nDims := hmem a (List.mem_cons_self a l)
    have hnm2 : axis ≠ a ∧ axis ∉ l := by
      rw [List.mem_cons] at hnmem
      exact ⟨fun hcon => hnmem (Or.inl hcon), fun hcon => hnmem (Or.inr hcon)⟩
    have htail : ∀ x, x ∈ l → x < dd.nDims :=
      fun x hx => hmem x (List.mem_cons_of_mem a hx)
    by_cases hfl : a ∈ flat
    · rw [if_pos hfl]
      exact ih state hagree htail hnm2.2
    · rw [if_neg hfl]
      have hagree' := syncAxisAll_agree dd state g a hlen ha hh (hNall a ha)
        hagree
      rw [ih (dd.syncAxisAll state a) hagree' htail hnm2.2]
      exact syncAxisAll_untouched dd state a r hlen ha hh (hNall a ha)
        (hagree r hr).1 idx hidxlen
        (fun j hj => by
          show idx.getD j 0 < dd.innerAtR r j + 2 * dd.halo
          by_cases hje : j = axis
          · rw [hje] at *
            omega
          · have h2 := (hother j hj hje).2
            omega)
        ⟨(hother a ha (fun hcon => hnm2.1 hcon.symm)).1,
         (hother a ha (fun hcon => hnm2.1 hcon.symm)).2⟩

/-- Folding the per-axis synchronisation over a duplicate-free axis list
containing `axis` (and with `axis` not skipped) establishes the wrapped
global value in the halo bands of `axis`. -/
theorem syncFold_halo {V : Type} (dd : DDm) (g : List Nat → V)
    (flat : List Nat) (axis r : Nat) (idx : List Nat)
    (hlen : dd.n_procs.length = dd.n_global.length)
    (hh : 1 ≤ dd.halo)
    (hNall : ∀ j, j < dd.nDims → 1 ≤ dd.nAt j)
    (hppos : ∀ j, j < dd.nDims → 1 ≤ dd.pAt j)
    (hvalid : ∀ j, j < dd.nDims → 2 ≤ dd.pAt j →
      dd.halo ≤ dd.nAt j / dd.pAt j)
    (hr : r < dd.size) (haxis : axis < dd.nDims) (hflat : axis ∉ flat)
    (hpne2 : dd.pAt axis ≠ 2)
    (hidxlen : idx.length = dd.nDims)
    (hother : ∀ j, j < dd.nDims → j ≠ axis →
      dd.halo ≤ idx.getD j 0 ∧ idx.getD j 0 < dd.halo + dd.innerAtR r j)
    (hhalopos : idx.getD axis 0 < dd.halo ∨
      (dd.halo + dd.innerAtR r axis ≤ idx.getD axis 0 ∧
       idx.getD axis 0 < 2 * dd.halo + dd.innerAtR r axis)) :
    ∀ (l : List Nat) (state : Nat → NDArr V), dd.ownedAgree state g →
      (∀ a, a ∈ l → a < dd.nDims) → l.Nodup → axis ∈ l →
      ((l.foldl (fun st ax => if ax ∈ flat then st else dd.syncAxisAll st ax)
          state) r).data idx = g (dd.haloSourceIdx r axis idx) := by
  have haxlt : idx.getD axis 0 < 2 * dd.halo + dd.innerAtR r axis := by
    rcases hhalopos with h | h
    · omega
    · omega
  intro l
  induction l with
  | nil => intro state _ _ _ hax; exact absurd hax (List.not_mem_nil axis)
  | cons a l ih =>
    intro state hagree hmem hnodup hax
    rw [List.foldl_cons]
    have ha : a < dd.nDims := hmem a (List.mem_cons_self a l)
    have htail : ∀ x, x ∈ l → x < dd.nDims :=
      fun x hx => hmem x (List.mem_cons_of_mem a hx)
    have hnd := List.nodup_cons.mp hnodup
    by_cases haxl : axis ∈ l
    · have hagree' : dd.ownedAgree
          (if a ∈ flat then state else dd.syncAxisAll state a) g := by
        split_ifs with hfl
        · exact hagree
        · exact syncAxisAll_agree dd state g a hlen ha hh (hNall a ha) hagree
      exact ih (if a ∈ flat then state else dd.syncAxisAll state a) hagree'
        htail hnd.2 haxl
    · have hae : axis = a := by
        rw [List.mem_cons] at hax
        exact hax.resolve_right haxl
      subst hae
      rw [if_neg hflat]
      have hagree' := syncAxisAll_agree dd state g axis hlen haxis hh
        (hNall axis haxis) hagree
      rw [syncFold_untouched dd g flat axis r idx hlen hh hNall hr haxis
        hidxlen hother haxlt l (dd.syncAxisAll state axis) hagree' htail
        hnd.1]
      exact syncAxis_halo dd state g axis r hlen haxis hh hNall hppos
        (hvalid axis haxis) hpne2 hagree hr idx hidxlen hother hhalopos

/-- C5 (amended: restricted to axes with a process count other than 2):
with `halo = h > 0` and every rank's owned region filled from a global
field `g`, after `sync` (the per-axis exchanges folded over all axes,
skipping `flat_axes`) every halo cell along a non-skipped axis with
`n_procs[axis] != 2` holds exactly the owned value of the
periodic-wraparound neighbour — `g` evaluated at the wrapped global
source point.  The single-process local wrap branch and the
`n_global[axis] < halo` wrap-mode pad branch are covered by the same
statement.  With exactly two processes on the axis the original claim is
false: both messages travel to the same peer with `tag=0` and the MPI
non-overtaking match delivers the peer's same-side edges, swapping the
two halo sides (see the counterexample). -/
theorem c5_sync_halo {V : Type} (dd : DDm) (state : Nat → NDArr V)
    (g : List Nat → V) (flat : List Nat) (axis r : Nat) (idx : List Nat)
    (hlen : dd.n_procs.length = dd.n_global.length)
    (hh : 1 ≤ dd.halo)
    (hNall : ∀ j, j < dd.nDims → 1 ≤ dd.nAt j)
    (hppos : ∀ j, j < dd.nDims → 1 ≤ dd.pAt j)
    (hvalid : ∀ j, j < dd.nDims → 2 ≤ dd.pAt j →
      dd.halo ≤ dd.nAt j / dd.pAt j)
    (hagree : dd.ownedAgree state g)
    (hr : r < dd.size) (haxis : axis < dd.nDims) (hflat : axis ∉ flat)
    (hpne2 : dd.pAt axis ≠ 2)
    (hidxlen : idx.length = dd.nDims)
    (hother : ∀ j, j < dd.nDims → j ≠ axis →
      dd.halo ≤ idx.getD j 0 ∧ idx.getD j 0 < dd.halo + dd.innerAtR r j)
    (hhalopos : idx.getD axis 0 < dd.halo ∨
      (dd.halo + dd.innerAtR r axis ≤ idx.getD axis 0 ∧
       idx.getD axis 0 < 2 * dd.halo + dd.innerAtR r axis)) :
    (dd.syncAll state flat r).data idx = g (dd.haloSourceIdx r axis idx) := by
  unfold DDm.syncAll
  rw [if_neg (by omega)]
  exact syncFold_halo dd g flat axis r idx hlen hh hNall hppos hvalid hr
    haxis hflat hpne2 hidxlen hother hhalopos (List.range dd.nDims) state hagree
    (fun a hain => List.mem_range.mp hain) (List.nodup_range dd.nDims)
    (List.mem_range.mpr haxis)

/-- Witness for C5: on the concrete three-process decomposition `demo3DD`
(6 global points, halo 1), the left halo cell `[0]` of rank 0 holds the
wrapped global value `demoField [5]` after `sync`. -/
theorem c5_sync_halo_witness :
    (demo3DD.syncAll demo3State [] 0).data [0] =
      demoField (demo3DD.haloSourceIdx 0 0 [0]) :=
  c5_sync_halo demo3DD demo3State demoField [] 0 0 [0] rfl (by decide)
    (by decide) (by decide) (by decide)
    (fun r hr => ⟨rfl, fun idx hidx => rfl⟩)
    (by decide) (by decide) (by decide) (by decide) rfl (by decide)
    (Or.inl (by decide))

/-- Counterexample to the original C5 claim, on the two-process
decomposition `demoDD` (4 global points, halo 1, `n_procs=[2]`): the two
messages to the single peer share `tag=0`, so the non-overtaking match
stores the peer's left inner edge — global point 2 — in rank 0's left
halo cell `[0]` instead of the periodic-wrap neighbour value
`demoField [3] = 3`. -/
theorem c5_two_procs_counterexample :
    (demoDD.syncAll demoState [] 0).data [0] ≠
      demoField (demoDD.haloSourceIdx 0 0 [0]) := by
  decide

theorem sub_halo (dd : DDm) (r : Nat) : (dd.sub r).halo = dd.halo := rfl

theorem sub_position_getD (dd : DDm) (r j : Nat)
    (hlen : dd.n_procs.length = dd.n_global.length) (hj : j < dd.nDims) :
    (dd.sub r).position.getD j 0 = dd.posAtR r j := by
  unfold DDm.sub subdomainOfRank DDm.posAtR DDm.coordAt DDm.nAt DDm.pAt
    DDm.nDims at *
  rw [position_getD _ _ _ _ _ (by rw [coordsOfRank_length]; omega) (by omega)
    hj]

theorem sub_inner_getD (dd : DDm) (r j : Nat)
    (hlen : dd.n_procs.length = dd.n_global.length) (hj : j < dd.nDims) :
    (dd.sub r).inner_shape.getD j 0 = dd.innerAtR r j := by
  unfold DDm.sub subdomainOfRank DDm.innerAtR DDm.coordAt DDm.nAt DDm.pAt
    DDm.nDims at *
  rw [inner_shape_getD _ _ _ _ _ (by rw [coordsOfRank_length]; omega)
    (by omega) hj]

theorem sub_global_getD (dd : DDm) (r j : Nat)
    (hlen : dd.n_procs.length = dd.n_global.length) (hj : j < dd.nDims) :
    (dd.sub r).global_slice.getD j ⟨0, 0⟩ =
      ⟨(dd.posAtR r j : Int),
       (dd.posAtR r j : Int) + (dd.innerAtR r j : Int)⟩ := by
  unfold DDm.sub subdomainOfRank DDm.posAtR DDm.innerAtR DDm.coordAt DDm.nAt
    DDm.pAt DDm.nDims at *
  rw [global_slice_getD _ _ _ _ _ (by rw [coordsOfRank_length]; omega)
    (by omega) hj]

theorem sub_global_length (dd : DDm) (r : Nat)
    (hlen : dd.n_procs.length = dd.n_global.length) :
    (dd.sub r).global_slice.length = dd.nDims := by
  unfold DDm.sub subdomainOfRank DDm.nDims at *
  rw [global_slice_length, coordsOfRank_length]
  omega

theorem sub_position_length (dd : DDm) (r : Nat)
    (hlen : dd.n_procs.length = dd.n_global.length) :
    (dd.sub r).position.length = dd.nDims := by
  unfold DDm.sub subdomainOfRank DDm.nDims at *
  rw [position_length, coordsOfRank_length]
  omega

/-- Each rank's owned interval stays inside `[0, n_global)` on every axis. -/
theorem axPos_add_axInner_le (c N p : Nat) (hc : c < p) :
    axPos c N p + axInner c N p ≤ N := by
  have hNd := Nat.div_add_mod N p
  have hexp : c * (N / p) + N / p = (c + 1) * (N / p) := by ring
  have hmul : (c + 1) * (N / p) ≤ p * (N / p) :=
    Nat.mul_le_mul_right _ (by omega)
  unfold axPos axInner
  split_ifs with hlast
  · omega
  · omega

theorem resolve_of_nonneg (m : Nat) (a b : Int) (ha : 0 ≤ a) (ham : a ≤ m)
    (hb : 0 ≤ b) (hbm : b ≤ m) :
    (PySlice.mk (some a) (some b)).resolve m = (a.toNat, b.toNat) := by
  simp only [PySlice.resolve, resolveEndpoint]
  split_ifs <;> (rw [Prod.mk.injEq]; constructor <;> omega)

/-- `Get_cart_rank` after `Get_coords` is the identity below the grid
size. -/
theorem rankOfCoords_coordsOfRank : ∀ (dims : List Nat) (r : Nat),
    (∀ d ∈ dims, 1 ≤ d) → r < gridSize dims →
    rankOfCoords dims (coordsOfRank dims r) = r
  | [], r, _, hr => by
      simp only [gridSize] at hr
      simp only [coordsOfRank, rankOfCoords]
      omega
  | d :: ds, r, hpos, hr => by
      have hgs : 1 ≤ gridSize ds :=
        gridSize_pos ds (fun x hx => hpos x (List.mem_cons_of_mem d hx))
      simp only [coordsOfRank, rankOfCoords, List.headD_cons, List.tail_cons]
      rw [Nat.mod_mod_of_dvd _ (dvd_refl d)]
      rw [rankOfCoords_coordsOfRank ds (r % gridSize ds)
            (fun x hx => hpos x (List.mem_cons_of_mem d hx))
            (Nat.mod_lt _ (by omega))]
      have hdiv : r / gridSize ds < d := by
        rw [Nat.div_lt_iff_lt_mul (by omega)]
        simpa [gridSize] using hr
      rw [Nat.mod_eq_of_lt hdiv]
      have hdm := Nat.div_add_mod r (gridSize ds)
      have hcomm : gridSize ds * (r / gridSize ds)
          = (r / gridSize ds) * gridSize ds := Nat.mul_comm _ _
      omega

/-- A fold of array updates that all keep the shape keeps the shape. -/
theorem foldl_shape {V α : Type} (f : NDArr V → α → NDArr V)
    (hf : ∀ acc s, (f acc s).shape = acc.shape) :
    ∀ (l : List α) (acc : NDArr V), (l.foldl f acc).shape = acc.shape
  | [], _ => rfl
  | a :: l, acc => by
      rw [List.foldl_cons, foldl_shape f hf l (f acc a), hf]

/-- The axis-after-axis synchronisation fold keeps the owned agreement. -/
theorem syncFold_agree {V : Type} (dd : DDm) (g : List Nat → V)
    (flat : List Nat)
    (hlen : dd.n_procs.length = dd.n_global.length)
    (hh : 1 ≤ dd.halo)
    (hNall : ∀ j, j < dd.nDims → 1 ≤ dd.nAt j) :
    ∀ (l : List Nat) (state : Nat → NDArr V), dd.ownedAgree state g →
      (∀ a, a ∈ l → a < dd.nDims) →
      dd.ownedAgree
        (l.foldl (fun st ax => if ax ∈ flat then st else dd.syncAxisAll st ax)
          state) g := by
  intro l
  induction l with
  | nil => intro state h _; exact h
  | cons a l ih =>
    intro state h hmem
    rw [List.foldl_cons]
    have ha : a < dd.nDims := hmem a (List.mem_cons_self a l)
    have htail : ∀ x, x ∈ l → x < dd.nDims :=
      fun x hx => hmem x (List.mem_cons_of_mem a hx)
    by_cases hfl : a ∈ flat
    · rw [if_pos hfl]
      exact ih state h htail
    · rw [if_neg hfl]
      exact ih _ (syncAxisAll_agree dd state g a hlen ha hh (hNall a ha) h)
        htail

/-- `sync` (over any skipped-axes list) keeps the owned agreement — also
when `halo = 0`, where it is the identity. -/
theorem syncAll_agree {V : Type} (dd : DDm) (state : Nat → NDArr V)
    (g : List Nat → V) (flat : List Nat)
    (hlen : dd.n_procs.length = dd.n_global.length)
    (hNall : ∀ j, j < dd.nDims → 1 ≤ dd.nAt j)
    (hagree : dd.ownedAgree state g) :
    dd.ownedAgree (dd.syncAll state flat) g := by
  unfold DDm.syncAll
  split_ifs with h0
  · exact hagree
  · exact syncFold_agree dd g flat hlen (by omega) hNall
      (List.range dd.nDims) state hagree (fun a ha => List.mem_range.mp ha)

/-- The `Transformer` fast path: two decompositions over the same
`n_global` that compare equal under `same_domain` are equal records. -/
theorem sameDomain_eq (din dout : DDm)
    (hg : din.n_global = dout.n_global)
    (hlin : din.n_procs.length = din.n_global.length)
    (hlout : dout.n_procs.length = dout.n_global.length)
    (hsame : sameDomain din dout = true) : din = dout := by
  unfold sameDomain at hsame
  rw [Bool.and_eq_true] at hsame
  have hhalo : din.halo = dout.halo := by
    have h2 := hsame.2
    rwa [beq_iff_eq] at h2
  have hnp : din.n_procs = dout.n_procs := by
    have hlen2 : din.n_procs.length = dout.n_procs.length := by
      rw [hlin, hlout, hg]
    apply List.ext_getElem hlen2
    intro i h1 h2
    have hall := hsame.1
    rw [List.all_eq_true] at hall
    have hz : i < (din.n_procs.zip dout.n_procs).length := by
      rw [List.length_zip]
      omega
    have hmem := List.getElem_mem hz
    have h3 := hall _ hmem
    rw [List.getElem_zip] at h3
    simpa using h3
  obtain ⟨gin, haloin, pin⟩ := din
  obtain ⟨gout, haloout, pout⟩ := dout
  dsimp only at hg hhalo hnp
  rw [hg, hhalo, hnp]

theorem overlap_length (din dout : DDm) (s r : Nat)
    (hg : din.n_global = dout.n_global)
    (hlin : din.n_procs.length = din.n_global.length)
    (hlout : dout.n_procs.length = dout.n_global.length) :
    ((dout.sub r).get_overlap_slice (din.sub s)).length = dout.nDims := by
  have hnd : din.nDims = dout.nDims := by
    unfold DDm.nDims
    rw [hg]
  unfold Subdomain.get_overlap_slice Subdomain.g2l_slice
  rw [List.length_zipWith, List.length_map, List.length_zip,
      sub_global_length dout r hlout, sub_global_length din s hlin,
      sub_position_length dout r hlout]
  omega

theorem overlap_getD (din dout : DDm) (s r j : Nat)
    (hg : din.n_global = dout.n_global)
    (hlin : din.n_procs.length = din.n_global.length)
    (hlout : dout.n_procs.length = dout.n_global.length)
    (hj : j < dout.nDims) :
    ((dout.sub r).get_overlap_slice (din.sub s)).getD j ⟨0, 0⟩ =
      ⟨max (dout.posAtR r j : Int) (din.posAtR s j : Int)
         - (dout.posAtR r j : Int) + (dout.halo : Int),
       min ((dout.posAtR r j : Int) + (dout.innerAtR r j : Int))
           ((din.posAtR s j : Int) + (din.innerAtR s j : Int))
         - (dout.posAtR r j : Int) + (dout.halo : Int)⟩ := by
  have hnd : din.nDims = dout.nDims := by
    unfold DDm.nDims
    rw [hg]
  unfold Subdomain.get_overlap_slice Subdomain.g2l_slice
  rw [getD_zipWith_eq _ _ _ _ ⟨0, 0⟩ 0 _
      (by rw [List.length_map, List.length_zip, sub_global_length dout r hlout,
              sub_global_length din s hlin]
          omega)
      (by rw [sub_position_length dout r hlout]; exact hj),
    getD_map_eq _ _ _ (⟨0, 0⟩, ⟨0, 0⟩) _
      (by rw [List.length_zip, sub_global_length dout r hlout,
              sub_global_length din s hlin]
          omega),
    getD_zip_eq (dout.sub r).global_slice (din.sub s).global_slice j
      ⟨0, 0⟩ ⟨0, 0⟩
      (by rw [sub_global_length dout r hlout]; exact hj)
      (by rw [sub_global_length din s hlin]; omega),
    sub_global_getD dout r j hlout hj, sub_global_getD din s j hlin (by omega),
    sub_position_getD dout r j hlout hj, sub_halo]

theorem hasOverlap_axis (din dout : DDm) (s r j : Nat)
    (hg : din.n_global = dout.n_global)
    (hlin : din.n_procs.length = din.n_global.length)
    (hlout : dout.n_procs.length = dout.n_global.length)
    (hj : j < dout.nDims)
    (hov : (din.sub s).has_overlap (dout.sub r) = true) :
    (din.posAtR s j : Int) <
      (dout.posAtR r j : Int) + (dout.innerAtR r j : Int) ∧
    (dout.posAtR r j : Int) <
      (din.posAtR s j : Int) + (din.innerAtR s j : Int) := by
  have hnd : din.nDims = dout.nDims := by
    unfold DDm.nDims
    rw [hg]
  unfold Subdomain.has_overlap at hov
  rw [List.all_eq_true] at hov
  have hz : j <
      ((din.sub s).global_slice.zip (dout.sub r).global_slice).length := by
    rw [List.length_zip, sub_global_length din s hlin,
        sub_global_length dout r hlout]
    omega
  have h2 := hov _ (List.getElem_mem hz)
  rw [List.getElem_zip,
      ← List.getD_eq_getElem (din.sub s).global_slice ⟨0, 0⟩
        (by rw [sub_global_length din s hlin]; omega),
      ← List.getD_eq_getElem (dout.sub r).global_slice ⟨0, 0⟩
        (by rw [sub_global_length dout r hlout]; exact hj),
      sub_global_getD din s j hlin (by omega),
      sub_global_getD dout r j hlout hj] at h2
  simp only [Bool.not_or, Bool.and_eq_true, Bool.not_eq_true',
    decide_eq_false_iff_not, ge_iff_le, not_le] at h2
  exact h2

theorem hasOverlap_of_pointwise (din dout : DDm) (s r : Nat) (G : Nat → Int)
    (hg : din.n_global = dout.n_global)
    (hlin : din.n_procs.length = din.n_global.length)
    (hlout : dout.n_procs.length = dout.n_global.length)
    (hin : ∀ j, j < dout.nDims → (din.posAtR s j : Int) ≤ G j ∧
      G j < (din.posAtR s j : Int) + (din.innerAtR s j : Int))
    (hout : ∀ j, j < dout.nDims → (dout.posAtR r j : Int) ≤ G j ∧
      G j < (dout.posAtR r j : Int) + (dout.innerAtR r j : Int)) :
    (din.sub s).has_overlap (dout.sub r) = true := by
  have hnd : din.nDims = dout.nDims := by
    unfold DDm.nDims
    rw [hg]
  unfold Subdomain.has_overlap
  rw [List.all_eq_true]
  intro x hx
  obtain ⟨j, hjlen, hjx⟩ := List.mem_iff_getElem.mp hx
  have hjd : j < dout.nDims := by
    rw [List.length_zip, sub_global_length din s hlin,
        sub_global_length dout r hlout] at hjlen
    omega
  rw [← hjx, List.getElem_zip,
      ← List.getD_eq_getElem (din.sub s).global_slice ⟨0, 0⟩
        (by rw [sub_global_length din s hlin]; omega),
      ← List.getD_eq_getElem (dout.sub r).global_slice ⟨0, 0⟩
        (by rw [sub_global_length dout r hlout]; exact hjd),
      sub_global_getD din s j hlin (by omega),
      sub_global_getD dout r j hlout hjd]
  have h1 := hin j hjd
  have h2 := hout j hjd
  simp only [Bool.not_or, Bool.and_eq_true, Bool.not_eq_true',
    decide_eq_false_iff_not, ge_iff_le, not_le]
  constructor
  · omega
  · omega

/-- Per-axis membership test of an owned output cell in the resolved
overlap region: it holds exactly when the source rank owns the cell's
global coordinate on that axis. -/
theorem overlap_axis_test (PO PI Iout II hO i : Nat)
    (hi : hO ≤ i) (hi2 : i < hO + Iout)
    (ho1 : (PI : Int) < (PO : Int) + (Iout : Int))
    (ho2 : (PO : Int) < (PI : Int) + (II : Int)) :
    (((PySlice.mk (some (max (PO : Int) (PI : Int) - (PO : Int) + (hO : Int)))
        (some (min ((PO : Int) + (Iout : Int)) ((PI : Int) + (II : Int))
          - (PO : Int) + (hO : Int)))).resolve (Iout + 2 * hO)).1 ≤ i ∧
      i < ((PySlice.mk
        (some (max (PO : Int) (PI : Int) - (PO : Int) + (hO : Int)))
        (some (min ((PO : Int) + (Iout : Int)) ((PI : Int) + (II : Int))
          - (PO : Int) + (hO : Int)))).resolve (Iout + 2 * hO)).2) ↔
      (PI ≤ PO + i - hO ∧ PO + i - hO < PI + II) := by
  rw [resolve_of_nonneg (Iout + 2 * hO)
      (max (PO : Int) (PI : Int) - (PO : Int) + (hO : Int))
      (min ((PO : Int) + (Iout : Int)) ((PI : Int) + (II : Int))
        - (PO : Int) + (hO : Int))
      (by omega) (by omega) (by omega) (by omega)]
  dsimp only
  constructor
  · intro h
    obtain ⟨h1, h2⟩ := h
    constructor <;> omega
  · intro h
    obtain ⟨h1, h2⟩ := h
    constructor <;> omega

/-- The resolved lower bound of an overlap slice on one axis. -/
theorem overlap_axis_lo (PO PI Iout II hO : Nat)
    (ho1 : (PI : Int) < (PO : Int) + (Iout : Int))
    (ho2 : (PO : Int) < (PI : Int) + (II : Int)) :
    ((PySlice.mk (some (max (PO : Int) (PI : Int) - (PO : Int) + (hO : Int)))
        (some (min ((PO : Int) + (Iout : Int)) ((PI : Int) + (II : Int))
          - (PO : Int) + (hO : Int)))).resolve (Iout + 2 * hO)).1
      = max PO PI - PO + hO := by
  rw [resolve_of_nonneg (Iout + 2 * hO)
      (max (PO : Int) (PI : Int) - (PO : Int) + (hO : Int))
      (min ((PO : Int) + (Iout : Int)) ((PI : Int) + (II : Int))
        - (PO : Int) + (hO : Int))
      (by omega) (by omega) (by omega) (by omega)]
  dsimp only
  omega

/-- One scatter step leaves an owned output cell unchanged when the source
rank does not own the cell's global coordinate on some axis. -/
theorem scatterStep_untouched {V : Type} (din dout : DDm)
    (src : NDArr V) (s r : Nat) (acc : NDArr V) (idx : List Nat)
    (hg : din.n_global = dout.n_global)
    (hlin : din.n_procs.length = din.n_global.length)
    (hlout : dout.n_procs.length = dout.n_global.length)
    (haccshape : acc.shape = (dout.sub r).shape)
    (hown : ∀ j, j < dout.nDims → dout.halo ≤ idx.getD j 0 ∧
      idx.getD j 0 < dout.halo + dout.innerAtR r j)
    (hov : (din.sub s).has_overlap (dout.sub r) = true)
    (j0 : Nat) (hj0 : j0 < dout.nDims)
    (hviol : ¬(din.posAtR s j0 ≤ dout.posAtR r j0 + idx.getD j0 0 - dout.halo ∧
      dout.posAtR r j0 + idx.getD j0 0 - dout.halo <
        din.posAtR s j0 + din.innerAtR s j0)) :
    (sliceSet acc (((dout.sub r).get_overlap_slice (din.sub s)).map Sl.toPy)
        src).data idx = acc.data idx := by
  have hnotreg : ¬ inRegion acc.shape
      (((dout.sub r).get_overlap_slice (din.sub s)).map Sl.toPy) idx := by
    intro hreg
    have ht := hreg j0 (by
      rw [List.length_map, overlap_length din dout s r hg hlin hlout]
      exact hj0)
    rw [getD_map_eq _ _ _ ⟨0, 0⟩ _
        (by rw [overlap_length din dout s r hg hlin hlout]; exact hj0),
      overlap_getD din dout s r j0 hg hlin hlout hj0, haccshape,
      sub_shape_getD dout r j0 hlout hj0] at ht
    unfold Sl.toPy DDm.shapeAtR at ht
    dsimp only at ht
    obtain ⟨ho1, ho2⟩ := hasOverlap_axis din dout s r j0 hg hlin hlout hj0 hov
    exact hviol ((overlap_axis_test _ _ _ _ _ _ (hown j0 hj0).1
      (hown j0 hj0).2 ho1 ho2).mp ht)
  unfold sliceSet
  dsimp only
  rw [if_neg hnotreg]

/-- One scatter step writes the owning source rank's value into an owned
output cell: the value of the global field at that cell's global
coordinate. -/
theorem scatterStep_value {V : Type} (din dout : DDm)
    (state : Nat → NDArr V) (g : List Nat → V) (s r : Nat) (acc : NDArr V)
    (idx : List Nat)
    (hg : din.n_global = dout.n_global)
    (hlin : din.n_procs.length = din.n_global.length)
    (hlout : dout.n_procs.length = dout.n_global.length)
    (haccshape : acc.shape = (dout.sub r).shape)
    (hidxlen : idx.length = dout.nDims)
    (hown : ∀ j, j < dout.nDims → dout.halo ≤ idx.getD j 0 ∧
      idx.getD j 0 < dout.halo + dout.innerAtR r j)
    (hsown : ∀ j, j < dout.nDims →
      din.posAtR s j ≤ dout.posAtR r j + idx.getD j 0 - dout.halo ∧
      dout.posAtR r j + idx.getD j 0 - dout.halo <
        din.posAtR s j + din.innerAtR s j)
    (hs : s < din.size)
    (hagree : din.ownedAgree state g) :
    (sliceSet acc (((dout.sub r).get_overlap_slice (din.sub s)).map Sl.toPy)
        (sliceGet (state s)
          (((din.sub s).get_overlap_slice (dout.sub r)).map Sl.toPy))).data idx
      = g (dout.l2gIdx r idx) := by
  have hnd : din.nDims = dout.nDims := by
    unfold DDm.nDims
    rw [hg]
  have hsshape := (hagree s hs).1
  have hovax : ∀ j, j < dout.nDims →
      (din.posAtR s j : Int) <
        (dout.posAtR r j : Int) + (dout.innerAtR r j : Int) ∧
      (dout.posAtR r j : Int) <
        (din.posAtR s j : Int) + (din.innerAtR s j : Int) := by
    intro j hj
    have h1 := hsown j hj
    have h2 := hown j hj
    constructor <;> omega
  have hreg : inRegion acc.shape
      (((dout.sub r).get_overlap_slice (din.sub s)).map Sl.toPy) idx := by
    intro j hjs
    rw [List.length_map, overlap_length din dout s r hg hlin hlout] at hjs
    rw [getD_map_eq _ _ _ ⟨0, 0⟩ _
        (by rw [overlap_length din dout s r hg hlin hlout]; exact hjs),
      overlap_getD din dout s r j hg hlin hlout hjs, haccshape,
      sub_shape_getD dout r j hlout hjs]
    unfold Sl.toPy DDm.shapeAtR
    dsimp only
    exact (overlap_axis_test _ _ _ _ _ _ (hown j hjs).1 (hown j hjs).2
      (hovax j hjs).1 (hovax j hjs).2).mpr (hsown j hjs)
  unfold sliceSet sliceGet
  dsimp only
  rw [if_pos hreg]
  have hlosOut : ∀ j, j < dout.nDims →
      (sliceLos (((dout.sub r).get_overlap_slice (din.sub s)).map Sl.toPy)
        acc.shape).getD j 0 =
      max (dout.posAtR r j) (din.posAtR s j) - dout.posAtR r j + dout.halo := by
    intro j hj
    unfold sliceLos
    rw [getD_zipWith_eq _ _ _ _ default 0 _
        (by rw [List.length_map, overlap_length din dout s r hg hlin hlout]
            exact hj)
        (by rw [haccshape, sub_shape_length dout r hlout]; exact hj),
      getD_map_eq _ _ _ ⟨0, 0⟩ _
        (by rw [overlap_length din dout s r hg hlin hlout]; exact hj),
      overlap_getD din dout s r j hg hlin hlout hj, haccshape,
      sub_shape_getD dout r j hlout hj]
    unfold Sl.toPy DDm.shapeAtR
    dsimp only
    exact overlap_axis_lo _ _ _ _ _ (hovax j hj).1 (hovax j hj).2
  have hlosIn : ∀ j, j < dout.nDims →
      (sliceLos (((din.sub s).get_overlap_slice (dout.sub r)).map Sl.toPy)
        (state s).shape).getD j 0 =
      max (din.posAtR s j) (dout.posAtR r j) - din.posAtR s j + din.halo := by
    intro j hj
    unfold sliceLos
    rw [getD_zipWith_eq _ _ _ _ default 0 _
        (by rw [List.length_map, overlap_length dout din r s hg.symm hlout hlin]
            omega)
        (by rw [hsshape, sub_shape_length din s hlin]; omega),
      getD_map_eq _ _ _ ⟨0, 0⟩ _
        (by rw [overlap_length dout din r s hg.symm hlout hlin]; omega),
      overlap_getD dout din r s j hg.symm hlout hlin (by omega), hsshape,
      sub_shape_getD din s j hlin (by omega)]
    unfold Sl.toPy DDm.shapeAtR
    dsimp only
    exact overlap_axis_lo _ _ _ _ _ (hovax j hj).2 (hovax j hj).1
  have hidxeq : List.zipWith (· + ·)
      (List.zipWith (· - ·) idx
        (sliceLos (((dout.sub r).get_overlap_slice (din.sub s)).map Sl.toPy)
          acc.shape))
      (sliceLos (((din.sub s).get_overlap_slice (dout.sub r)).map Sl.toPy)
        (state s).shape) =
      (List.range din.nDims).map (fun j =>
        dout.posAtR r j + idx.getD j 0 - dout.halo
          - din.posAtR s j + din.halo) := by
    apply ext_getD 0
    · rw [List.length_zipWith, List.length_zipWith, sliceLos_length,
          sliceLos_length, List.length_map, List.length_map,
          overlap_length din dout s r hg hlin hlout,
          overlap_length dout din r s hg.symm hlout hlin,
          haccshape, sub_shape_length dout r hlout, hsshape,
          sub_shape_length din s hlin, hidxlen, List.length_map,
          List.length_range]
      omega
    · intro j hj
      rw [List.length_zipWith, List.length_zipWith, sliceLos_length,
          sliceLos_length, List.length_map, List.length_map,
          overlap_length din dout s r hg hlin hlout,
          overlap_length dout din r s hg.symm hlout hlin,
          haccshape, sub_shape_length dout r hlout, hsshape,
          sub_shape_length din s hlin, hidxlen] at hj
      have hjd : j < dout.nDims := by omega
      rw [getD_zipWith_eq _ _ _ _ 0 0 _
          (by rw [List.length_zipWith, sliceLos_length, List.length_map,
                overlap_length din dout s r hg hlin hlout, haccshape,
                sub_shape_length dout r hlout, hidxlen]
              omega)
          (by rw [sliceLos_length, List.length_map,
                overlap_length dout din r s hg.symm hlout hlin, hsshape,
                sub_shape_length din s hlin]
              omega),
        getD_zipWith_eq _ _ _ _ 0 0 _ (by omega)
          (by rw [sliceLos_length, List.length_map,
                overlap_length din dout s r hg hlin hlout, haccshape,
                sub_shape_length dout r hlout]
              omega),
        hlosOut j hjd, hlosIn j hjd,
        getD_map_eq _ _ _ 0 _ (by rw [List.length_range]; omega),
        getD_range_eq _ _ _ (by omega)]
      have h1 := hsown j hjd
      have h2 := hown j hjd
      omega
  rw [hidxeq]
  have hsrcowned : din.ownedIdx s ((List.range din.nDims).map (fun j =>
      dout.posAtR r j + idx.getD j 0 - dout.halo
        - din.posAtR s j + din.halo)) := by
    constructor
    · rw [List.length_map, List.length_range]
    · intro j hj
      rw [getD_map_eq _ _ _ 0 _ (by rw [List.length_range]; exact hj),
          getD_range_eq _ _ _ hj]
      have h1 := hsown j (by omega)
      have h2 := hown j (by omega)
      constructor <;> omega
  rw [(hagree s hs).2 _ hsrcowned]
  congr 1
  unfold DDm.l2gIdx
  apply ext_getD 0
  · rw [List.length_map, List.length_map, List.length_range,
        List.length_range]
    omega
  · intro j hj
    rw [List.length_map, List.length_range] at hj
    rw [getD_map_eq _ _ _ 0 _ (by rw [List.length_range]; exact hj),
        getD_range_eq _ _ _ hj,
        getD_map_eq _ _ _ 0 _ (by rw [List.length_range]; exact hj),
        getD_range_eq _ _ _ hj,
        getD_map_eq _ _ _ 0 _ (by rw [List.length_range]; omega),
        getD_range_eq _ _ _ (by omega)]
    have h1 := hsown j (by omega)
    have h2 := hown j (by omega)
    omega

/-- Every global grid point has exactly one owning rank in a
decomposition (per-axis partition uniqueness composed over the axes). -/
theorem owner_exists (din : DDm) (G : Nat → Nat)
    (hlin : din.n_procs.length = din.n_global.length)
    (hpin : ∀ j, j < din.nDims → 1 ≤ din.pAt j)
    (hG : ∀ j, j < din.nDims → G j < din.nAt j) :
    ∃ sstar, sstar < din.size ∧
      (∀ j, j < din.nDims → din.posAtR sstar j ≤ G j ∧
        G j < din.posAtR sstar j + din.innerAtR sstar j) ∧
      ∀ s, s < din.size →
        (∀ j, j < din.nDims → din.posAtR s j ≤ G j ∧
          G j < din.posAtR s j + din.innerAtR s j) → s = sstar := by
  have hax : ∀ j, j < din.nDims → ∃! c, c < din.pAt j ∧
      axPos c (din.nAt j) (din.pAt j) ≤ G j ∧
      G j < axPos c (din.nAt j) (din.pAt j) +
        axInner c (din.nAt j) (din.pAt j) :=
    fun j hj => axPartition (din.nAt j) (din.pAt j) (G j) (hpin j hj)
      (hG j hj)
  set cs : List Nat := (List.range din.nDims).map
    (fun j => if h : j < din.nDims then (hax j h).choose else 0) with hcsdef
  have hcslen : cs.length = din.nDims := by
    rw [hcsdef, List.length_map, List.length_range]
  have hcsgetD : ∀ j, ∀ h : j < din.nDims, cs.getD j 0 = (hax j h).choose := by
    intro j h
    rw [hcsdef, getD_map_eq _ _ _ 0 _ (by rw [List.length_range]; exact h),
        getD_range_eq _ _ _ h, dif_pos h]
  have hposd : ∀ d ∈ din.n_procs, 1 ≤ d := nprocs_mem_pos din hlin hpin
  have hnp : din.n_procs.length = din.nDims := by
    unfold DDm.nDims
    omega
  have hcslt : ∀ j, j < din.n_procs.length →
      cs.getD j 0 < din.n_procs.getD j 0 := by
    intro j hj
    have hjd : j < din.nDims := by omega
    rw [hcsgetD j hjd]
    exact ((hax j hjd).choose_spec.1).1
  have hcoords : coordsOfRank din.n_procs (rankOfCoords din.n_procs cs) = cs :=
    coordsOfRank_rankOfCoords din.n_procs cs (by omega) hposd hcslt
  refine ⟨rankOfCoords din.n_procs cs,
    rankOfCoords_lt din.n_procs cs hposd hcslt, ?_, ?_⟩
  · intro j hj
    have hca : din.coordAt (rankOfCoords din.n_procs cs) j
        = (hax j hj).choose := by
      unfold DDm.coordAt
      rw [hcoords, hcsgetD j hj]
    have hsp := (hax j hj).choose_spec.1
    unfold DDm.posAtR DDm.innerAtR
    rw [hca]
    exact ⟨hsp.2.1, hsp.2.2⟩
  · intro s hs hsown
    have hceq : coordsOfRank din.n_procs s = cs := by
      apply ext_getD 0
      · rw [coordsOfRank_length, hcslen]
        omega
      · intro j hj
        rw [coordsOfRank_length] at hj
        have hjd : j < din.nDims := by omega
        rw [hcsgetD j hjd]
        exact (hax j hjd).choose_spec.2 _
          ⟨coordAt_lt din s j hlin hjd (hpin j hjd),
           (hsown j hjd).1, (hsown j hjd).2⟩
    calc s = rankOfCoords din.n_procs (coordsOfRank din.n_procs s) :=
          (rankOfCoords_coordsOfRank din.n_procs s hposd hs).symm
      _ = rankOfCoords din.n_procs cs := by rw [hceq]

/-- Folding the receive steps over source ranks other than the owner never
changes an owned output cell. -/
theorem scatterFold_untouched {V : Type} (din dout : DDm)
    (state : Nat → NDArr V) (r sstar : Nat) (idx : List Nat)
    (hg : din.n_global = dout.n_global)
    (hlin : din.n_procs.length = din.n_global.length)
    (hlout : dout.n_procs.length = dout.n_global.length)
    (hown : ∀ j, j < dout.nDims → dout.halo ≤ idx.getD j 0 ∧
      idx.getD j 0 < dout.halo + dout.innerAtR r j)
    (huniq : ∀ s, s < din.size →
      (∀ j, j < dout.nDims →
        din.posAtR s j ≤ dout.posAtR r j + idx.getD j 0 - dout.halo ∧
        dout.posAtR r j + idx.getD j 0 - dout.halo <
          din.posAtR s j + din.innerAtR s j) → s = sstar) :
    ∀ (l : List Nat) (acc : NDArr V), acc.shape = (dout.sub r).shape →
      (∀ a, a ∈ l → a < din.size) → sstar ∉ l →
      (l.foldl (fun acc s =>
          if s = r then acc
          else if (din.sub s).has_overlap (dout.sub r) = true then
            sliceSet acc
              (((dout.sub r).get_overlap_slice (din.sub s)).map Sl.toPy)
              (sliceGet (state s)
                (((din.sub s).get_overlap_slice (dout.sub r)).map Sl.toPy))
          else acc) acc).data idx = acc.data idx := by
  intro l
  induction l with
  | nil => intro acc _ _ _; rfl
  | cons a l ih =>
    intro acc hacc hmem hns
    rw [List.foldl_cons]
    have ha : a < din.size := hmem a (List.mem_cons_self a l)
    have htail : ∀ x, x ∈ l → x < din.size :=
      fun x hx => hmem x (List.mem_cons_of_mem a hx)
    have hns2 : sstar ≠ a ∧ sstar ∉ l := by
      rw [List.mem_cons] at hns
      exact ⟨fun hc => hns (Or.inl hc), fun hc => hns (Or.inr hc)⟩
    by_cases har : a = r
    · rw [if_pos har]
      exact ih acc hacc htail hns2.2
    · rw [if_neg har]
      by_cases hovb : (din.sub a).has_overlap (dout.sub r) = true
      · rw [if_pos hovb]
        have hnall : ¬ ∀ j, j < dout.nDims →
            din.posAtR a j ≤ dout.posAtR r j + idx.getD j 0 - dout.halo ∧
            dout.posAtR r j + idx.getD j 0 - dout.halo <
              din.posAtR a j + din.innerAtR a j := by
          intro hall
          exact hns2.1 ((huniq a ha hall).symm)
        rw [not_forall] at hnall
        obtain ⟨j0, hj0v⟩ := hnall
        rw [Classical.not_imp] at hj0v
        obtain ⟨hj0, hviol⟩ := hj0v
        rw [ih _ (by rw [sliceSet_shape]; exact hacc) htail hns2.2]
        exact scatterStep_untouched din dout _ a r acc idx hg hlin hlout hacc
          hown hovb j0 hj0 hviol
      · rw [if_neg hovb]
        exact ih acc hacc htail hns2.2

/-- Folding the receive steps over a duplicate-free source list containing
the owner (different from the destination rank itself) writes the owner's
value into an owned output cell. -/
theorem scatterFold_value {V : Type} (din dout : DDm)
    (state : Nat → NDArr V) (g : List Nat → V) (r sstar : Nat)
    (idx : List Nat)
    (hg : din.n_global = dout.n_global)
    (hlin : din.n_procs.length = din.n_global.length)
    (hlout : dout.n_procs.length = dout.n_global.length)
    (hidxlen : idx.length = dout.nDims)
    (hown : ∀ j, j < dout.nDims → dout.halo ≤ idx.getD j 0 ∧
      idx.getD j 0 < dout.halo + dout.innerAtR r j)
    (hsownstar : ∀ j, j < dout.nDims →
      din.posAtR sstar j ≤ dout.posAtR r j + idx.getD j 0 - dout.halo ∧
      dout.posAtR r j + idx.getD j 0 - dout.halo <
        din.posAtR sstar j + din.innerAtR sstar j)
    (huniq : ∀ s, s < din.size →
      (∀ j, j < dout.nDims →
        din.posAtR s j ≤ dout.posAtR r j + idx.getD j 0 - dout.halo ∧
        dout.posAtR r j + idx.getD j 0 - dout.halo <
          din.posAtR s j + din.innerAtR s j) → s = sstar)
    (hsstar : sstar < din.size) (hner : sstar ≠ r)
    (hagree : din.ownedAgree state g) :
    ∀ (l : List Nat) (acc : NDArr V), acc.shape = (dout.sub r).shape →
      (∀ a, a ∈ l → a < din.size) → l.Nodup → sstar ∈ l →
      (l.foldl (fun acc s =>
          if s = r then acc
          else if (din.sub s).has_overlap (dout.sub r) = true then
            sliceSet acc
              (((dout.sub r).get_overlap_slice (din.sub s)).map Sl.toPy)
              (sliceGet (state s)
                (((din.sub s).get_overlap_slice (dout.sub r)).map Sl.toPy))
          else acc) acc).data idx = g (dout.l2gIdx r idx) := by
  intro l
  induction l with
  | nil => intro acc _ _ _ hin; exact absurd hin (List.not_mem_nil sstar)
  | cons a l ih =>
    intro acc hacc hmem hnd hin
    rw [List.foldl_cons]
    have htail : ∀ x, x ∈ l → x < din.size :=
      fun x hx => hmem x (List.mem_cons_of_mem a hx)
    have hndc := List.nodup_cons.mp hnd
    by_cases hmem2 : sstar ∈ l
    · refine ih _ ?_ htail hndc.2 hmem2
      split_ifs <;> exact hacc
    · have hae : sstar = a := (List.mem_cons.mp hin).resolve_right hmem2
      subst hae
      rw [if_neg hner]
      have hov : (din.sub sstar).has_overlap (dout.sub r) = true := by
        apply hasOverlap_of_pointwise din dout sstar r
          (fun j => ((dout.posAtR r j + idx.getD j 0 - dout.halo : Nat) : Int))
          hg hlin hlout
        · intro j hj
          have h1 := hsownstar j hj
          constructor <;> omega
        · intro j hj
          have h2 := hown j hj
          constructor <;> omega
      rw [if_pos hov]
      rw [scatterFold_untouched din dout state r sstar idx hg hlin hlout hown
        huniq l _ (by rw [sliceSet_shape]; exact hacc) htail hndc.1]
      exact scatterStep_value din dout state g sstar r acc idx hg hlin hlout
        hacc hidxlen hown hsownstar hsstar hagree

/-- The scatter phase of `transform` leaves the output state agreeing with
the global field on every output rank's owned region. -/
theorem transformScatter_agree {V : Type} [Zero V] (din dout : DDm)
    (state : Nat → NDArr V) (g : List Nat → V)
    (hg : din.n_global = dout.n_global)
    (hlin : din.n_procs.length = din.n_global.length)
    (hlout : dout.n_procs.length = dout.n_global.length)
    (hpin : ∀ j, j < din.nDims → 1 ≤ din.pAt j)
    (hpout : ∀ j, j < dout.nDims → 1 ≤ dout.pAt j)
    (hsize : din.size = dout.size)
    (hagree : din.ownedAgree state g) :
    dout.ownedAgree (transformScatter din dout state) g := by
  have hnd : din.nDims = dout.nDims := by
    unfold DDm.nDims
    rw [hg]
  intro r hr
  have hstepshape : ∀ (acc : NDArr V) (s : Nat),
      ((fun (acc : NDArr V) (s : Nat) =>
        if s = r then acc
        else if (din.sub s).has_overlap (dout.sub r) = true then
          sliceSet acc
            (((dout.sub r).get_overlap_slice (din.sub s)).map Sl.toPy)
            (sliceGet (state s)
              (((din.sub s).get_overlap_slice (dout.sub r)).map Sl.toPy))
        else acc) acc s).shape = acc.shape := by
    intro acc s
    dsimp only
    split_ifs <;> rfl
  constructor
  · show (transformScatter din dout state r).shape = (dout.sub r).shape
    simp only [transformScatter]
    split_ifs with hovr
    · exact foldl_shape _ hstepshape (List.range din.size) _
    · exact foldl_shape _ hstepshape (List.range din.size) _
  · intro idx hidx
    have hidxlen : idx.length = dout.nDims := hidx.1
    have hown : ∀ j, j < dout.nDims → dout.halo ≤ idx.getD j 0 ∧
        idx.getD j 0 < dout.halo + dout.innerAtR r j := hidx.2
    have hGlt : ∀ j, j < din.nDims →
        dout.posAtR r j + idx.getD j 0 - dout.halo < din.nAt j := by
      intro j hj
      have hjd : j < dout.nDims := by omega
      have h2 := hown j hjd
      have hca := coordAt_lt dout r j hlout hjd (hpout j hjd)
      have hle := axPos_add_axInner_le (dout.coordAt r j) (dout.nAt j)
        (dout.pAt j) hca
      have hne : din.nAt j = dout.nAt j := by
        unfold DDm.nAt
        rw [hg]
      have hpos : dout.posAtR r j
          = axPos (dout.coordAt r j) (dout.nAt j) (dout.pAt j) := rfl
      have hinn : dout.innerAtR r j
          = axInner (dout.coordAt r j) (dout.nAt j) (dout.pAt j) := rfl
      omega
    obtain ⟨sstar, hsstar, hsownG, huniqG⟩ := owner_exists din
      (fun j => dout.posAtR r j + idx.getD j 0 - dout.halo) hlin hpin hGlt
    have hsownstar : ∀ j, j < dout.nDims →
        din.posAtR sstar j ≤ dout.posAtR r j + idx.getD j 0 - dout.halo ∧
        dout.posAtR r j + idx.getD j 0 - dout.halo <
          din.posAtR sstar j + din.innerAtR sstar j :=
      fun j hj => hsownG j (by omega)
    have huniq : ∀ s, s < din.size →
        (∀ j, j < dout.nDims →
          din.posAtR s j ≤ dout.posAtR r j + idx.getD j 0 - dout.halo ∧
          dout.posAtR r j + idx.getD j 0 - dout.halo <
            din.posAtR s j + din.innerAtR s j) → s = sstar :=
      fun s hs hall => huniqG s hs (fun j hj => hall j (by omega))
    show (transformScatter din dout state r).data idx = _
    simp only [transformScatter]
    by_cases hsr : sstar = r
    · have hsownr : ∀ j, j < dout.nDims →
          din.posAtR r j ≤ dout.posAtR r j + idx.getD j 0 - dout.halo ∧
          dout.posAtR r j + idx.getD j 0 - dout.halo <
            din.posAtR r j + din.innerAtR r j := by
        intro j hj
        have h1 := hsownstar j hj
        rw [hsr] at h1
        exact h1
      have hovr : (din.sub r).has_overlap (dout.sub r) = true := by
        apply hasOverlap_of_pointwise din dout r r
          (fun j => ((dout.posAtR r j + idx.getD j 0 - dout.halo : Nat) : Int))
          hg hlin hlout
        · intro j hj
          have h1 := hsownr j hj
          constructor <;> omega
        · intro j hj
          have h2 := hown j hj
          constructor <;> omega
      rw [if_pos hovr]
      exact scatterStep_value din dout state g r r _ idx hg hlin hlout
        (foldl_shape _ hstepshape (List.range din.size) _) hidxlen hown
        hsownr (hsr ▸ hsstar) hagree
    · have hfold := scatterFold_value din dout state g r sstar idx hg hlin
        hlout hidxlen hown hsownstar huniq hsstar hsr hagree
        (List.range din.size) ⟨(dout.sub r).shape, fun _ => 0⟩ rfl
        (fun a hain => List.mem_range.mp hain) (List.nodup_range _)
        (List.mem_range.mpr hsstar)
      by_cases hovr : (din.sub r).has_overlap (dout.sub r) = true
      · rw [if_pos hovr]
        have hrsize : r < din.size := by
          rw [hsize]
          exact hr
        have hnallr : ¬ ∀ j, j < dout.nDims →
            din.posAtR r j ≤ dout.posAtR r j + idx.getD j 0 - dout.halo ∧
            dout.posAtR r j + idx.getD j 0 - dout.halo <
              din.posAtR r j + din.innerAtR r j := by
          intro hall
          exact hsr (huniq r hrsize hall).symm
        rw [not_forall] at hnallr
        obtain ⟨j0, hj0v⟩ := hnallr
        rw [Classical.not_imp] at hj0v
        obtain ⟨hj0, hviol⟩ := hj0v
        rw [scatterStep_untouched din dout _ r r _ idx hg hlin hlout
          (foldl_shape _ hstepshape (List.range din.size) _) hown hovr j0
          hj0 hviol]
        exact hfold
      · rw [if_neg hovr]
        exact hfold

/-- `transform` (the `Transformer.forward` data movement) carries the
owned agreement with the global field from the input decomposition to the
output decomposition — through the `same_domain` fast path, the scatter,
and the final output-domain sync alike. -/
theorem transform_agree {V : Type} [Zero V] (din dout : DDm)
    (state : Nat → NDArr V) (g : List Nat → V)
    (hg : din.n_global = dout.n_global)
    (hlin : din.n_procs.length = din.n_global.length)
    (hlout : dout.n_procs.length = dout.n_global.length)
    (hpin : ∀ j, j < din.nDims → 1 ≤ din.pAt j)
    (hpout : ∀ j, j < dout.nDims → 1 ≤ dout.pAt j)
    (hN : ∀ j, j < din.nDims → 1 ≤ din.nAt j)
    (hsize : din.size = dout.size)
    (hagree : din.ownedAgree state g) :
    dout.ownedAgree (transform din dout state) g := by
  have hnd : din.nDims = dout.nDims := by
    unfold DDm.nDims
    rw [hg]
  unfold transform
  split_ifs with hsame
  · rw [← sameDomain_eq din dout hg hlin hlout hsame]
    exact hagree
  · refine syncAll_agree dout _ g [] hlout ?_ ?_
    · intro j hj
      have h1 := hN j (by omega)
      unfold DDm.nAt at h1 ⊢
      rw [← hg]
      exact h1
    · exact transformScatter_agree din dout state g hg hlin hlout hpin hpout
        hsize hagree

/-- C2: for two decompositions of the same global grid (on the same
communicator, so with equal process counts), after the `Transformer`
forward data movement every grid point in the output domain's owned
(non-halo) region holds exactly the value of the global field at its
global coordinate — i.e. the value from the unique overlapping point of
the input domain's owned region, with no precision loss (the statement is
over an arbitrary value type, so it is pure data movement); applying the
backward movement (`transform` with the roles swapped) reproduces the
original owned-region values exactly. -/
theorem c2_transformer_fidelity {V : Type} [Zero V] (din dout : DDm)
    (state : Nat → NDArr V) (g : List Nat → V)
    (hg : din.n_global = dout.n_global)
    (hlin : din.n_procs.length = din.n_global.length)
    (hlout : dout.n_procs.length = dout.n_global.length)
    (hpin : ∀ j, j < din.nDims → 1 ≤ din.pAt j)
    (hpout : ∀ j, j < dout.nDims → 1 ≤ dout.pAt j)
    (hN : ∀ j, j < din.nDims → 1 ≤ din.nAt j)
    (hsize : din.size = dout.size)
    (hagree : din.ownedAgree state g) :
    dout.ownedAgree (transform din dout state) g ∧
      din.ownedAgree (transform dout din (transform din dout state)) g := by
  have hnd : din.nDims = dout.nDims := by
    unfold DDm.nDims
    rw [hg]
  have h1 := transform_agree din dout state g hg hlin hlout hpin hpout hN
    hsize hagree
  refine ⟨h1, ?_⟩
  refine transform_agree dout din _ g hg.symm hlout hlin hpout hpin ?_
    hsize.symm h1
  intro j hj
  have h2 := hN j (by omega)
  unfold DDm.nAt at h2 ⊢
  rw [hg] at h2
  exact h2

/-- Witness for C2: moving the concrete state of `demoDD` (4 points, two
ranks, halo 1) into a halo-0 decomposition over the same grid and back
preserves the owned values of `demoField` exactly. -/
theorem c2_transformer_fidelity_witness :
    (DDm.mk [4] 0 [2]).ownedAgree
        (transform demoDD (DDm.mk [4] 0 [2]) demoState) demoField ∧
      demoDD.ownedAgree
        (transform (DDm.mk [4] 0 [2]) demoDD
          (transform demoDD (DDm.mk [4] 0 [2]) demoState)) demoField :=
  c2_transformer_fidelity demoDD (DDm.mk [4] 0 [2]) demoState demoField rfl
    rfl rfl (by decide) (by decide) (by decide) (by decide)
    (fun r hr => ⟨rfl, fun idx hidx => rfl⟩)

/-- C9 (amended: requires `halo >= 1`): `apply_boundary_condition(arr, bc,
axis, side)` overwrites exactly the halo region on the given side with
`bc` on the ranks at the true global edge along that axis; on every other
rank the array is returned entirely unchanged; and any `side` other than
"left"/"right" raises `ValueError` with the array untouched.  (With
`halo = 0` the right-side slice `slice(-0, None)` selects the whole axis,
so the claim as stated fails there — see the counterexample.) -/
theorem c9_apply_boundary_condition (V : Type) (dd : DDm) (rank : Nat)
    (arr : NDArr V) (bc : V) (axis : Nat) (side : String)
    (hhalo : 1 ≤ dd.halo) (haxis : axis < dd.nDims)
    (hshapeax : 2 * dd.halo ≤ arr.shape.getD axis 0) :
    (side = "left" →
      (dd.sub rank).is_left_edge.getD axis false = false →
        dd.applyBoundaryCondition rank arr bc axis side = Except.ok arr) ∧
    (side = "right" →
      (dd.sub rank).is_right_edge.getD axis false = false →
        dd.applyBoundaryCondition rank arr bc axis side = Except.ok arr) ∧
    (side = "left" →
      (dd.sub rank).is_left_edge.getD axis false = true →
      ∃ res, dd.applyBoundaryCondition rank arr bc axis side = Except.ok res ∧
        res.shape = arr.shape ∧
        ∀ idx, (∀ j, j < dd.nDims → idx.getD j 0 < arr.shape.getD j 0) →
          res.data idx =
            if idx.getD axis 0 < dd.halo then bc else arr.data idx) ∧
    (side = "right" →
      (dd.sub rank).is_right_edge.getD axis false = true →
      ∃ res, dd.applyBoundaryCondition rank arr bc axis side = Except.ok res ∧
        res.shape = arr.shape ∧
        ∀ idx, (∀ j, j < dd.nDims → idx.getD j 0 < arr.shape.getD j 0) →
          res.data idx =
            if arr.shape.getD axis 0 - dd.halo ≤ idx.getD axis 0 then bc
            else arr.data idx) ∧
    (side ≠ "left" → side ≠ "right" →
      ∃ e, dd.applyBoundaryCondition rank arr bc axis side = Except.error e) := by
  have hhs : dd.halo ≤ arr.shape.getD axis 0 := by omega
  refine ⟨?_, ?_, ?_, ?_, ?_⟩
  · intro hs hedge
    subst hs
    unfold DDm.applyBoundaryCondition
    rw [if_pos rfl, hedge]
    simp
  · intro hs hedge
    subst hs
    unfold DDm.applyBoundaryCondition
    rw [if_pos rfl, hedge]
    simp
  · intro hs hedge
    subst hs
    refine ⟨sliceFill arr (dd.recvFromPrev axis) bc, ?_, rfl, ?_⟩
    · unfold DDm.applyBoundaryCondition
      rw [if_pos rfl, hedge]
      simp
    · intro idx hbound
      show (if inRegion arr.shape (dd.recvFromPrev axis) idx then bc
            else arr.data idx) = _
      unfold DDm.recvFromPrev
      by_cases hcase : idx.getD axis 0 < dd.halo
      · rw [if_pos hcase, if_pos]
        refine (inRegion_axis_iff _ _ _ _ _ haxis).mpr
          ⟨fun j hj _ => hbound j hj, ?_, ?_⟩
        · rw [resolve_none_some]
          omega
        · rw [resolve_none_some]
          omega
      · rw [if_neg hcase, if_neg]
        intro hreg
        obtain ⟨_, _, h2⟩ := (inRegion_axis_iff _ _ _ _ _ haxis).mp hreg
        rw [resolve_none_some] at h2
        omega
  · intro hs hedge
    subst hs
    refine ⟨sliceFill arr (dd.recvFromNext axis) bc, ?_, rfl, ?_⟩
    · unfold DDm.applyBoundaryCondition
      rw [if_pos rfl, hedge]
      simp
    · intro idx hbound
      show (if inRegion arr.shape (dd.recvFromNext axis) idx then bc
            else arr.data idx) = _
      unfold DDm.recvFromNext
      by_cases hcase : arr.shape.getD axis 0 - dd.halo ≤ idx.getD axis 0
      · rw [if_pos hcase, if_pos]
        refine (inRegion_axis_iff _ _ _ _ _ haxis).mpr
          ⟨fun j hj _ => hbound j hj, ?_, ?_⟩
        · rw [resolve_negsome_none _ _ hhalo hhs]
          omega
        · rw [resolve_negsome_none _ _ hhalo hhs]
          exact hbound axis haxis
      · rw [if_neg hcase, if_neg]
        intro hreg
        obtain ⟨_, h1, _⟩ := (inRegion_axis_iff _ _ _ _ _ haxis).mp hreg
        rw [resolve_negsome_none _ _ hhalo hhs] at h1
        omega
  · intro h1 h2
    unfold DDm.applyBoundaryCondition
    rw [if_neg h1, if_neg h2]
    exact ⟨_, rfl⟩

/-- Witness for C9 at a concrete input: `n_global=[6]`, `halo=1`,
`n_procs=[1]`, rank 0 (a global-edge rank), `side="left"`. -/
theorem c9_apply_boundary_condition_witness :
    ((1 : Nat) ≤ 1 ∧ (0 : Nat) < 1 ∧
      2 * 1 ≤ (([8] : List Nat)).getD 0 0) ∧
    (∃ res, (DDm.mk [6] 1 [1]).applyBoundaryCondition 0
        (NDArr.mk [8] (fun _ => (0 : Int))) 5 0 "left" = Except.ok res ∧
      res.shape = [8] ∧
      ∀ idx, (∀ j, j < (DDm.mk [6] 1 [1]).nDims →
          idx.getD j 0 < ([8] : List Nat).getD j 0) →
        res.data idx = if idx.getD 0 0 < 1 then (5 : Int) else 0) := by
  refine ⟨⟨le_refl 1, Nat.zero_lt_one, by decide⟩, ?_⟩
  have h := (c9_apply_boundary_condition Int (DDm.mk [6] 1 [1]) 0
    (NDArr.mk [8] (fun _ => (0 : Int))) 5 0 "left" (by decide) (by decide)
    (by decide)).2.2.1 rfl (by decide)
  exact h

/-- Counterexample for C9 as frozen: with `halo = 0` (n_global=[4],
n_procs=[1], rank 0 is a right-edge rank) the right-side call overwrites
the whole axis — owned cell 1 changes from 1 to 9 although the halo
region is empty, so the claim that only the halo region is overwritten
fails. -/
theorem c9_halo_zero_counterexample :
    ∃ res, (DDm.mk [4] 0 [1]).applyBoundaryCondition 0
        (NDArr.mk [4] (fun _ => (1 : Int))) 9 0 "right" = Except.ok res ∧
      res.data [1] = 9 ∧
      (NDArr.mk [4] (fun _ => (1 : Int))).data [1] = 1 ∧
      ((9 : Int) ≠ 1) ∧ (DDm.mk [4] 0 [1]).halo = 0 := by
  refine ⟨_, rfl, ?_, rfl, by decide, rfl⟩
  decide

/-- C8: for any two subdomains over the same `n_global`, `has_overlap` is
symmetric; the two overlap slices, converted back to global coordinates
(by the spec's inverse of `g2l_slice`), coincide; and when there is no
overlap, `get_overlap_slice` still returns — on some axis the returned
slice is degenerate (`stop ≤ start`, an empty selection) rather than a
failure. -/
theorem c8_overlap_symmetry (n_global cA pA cB pB : List Nat) (hA hB : Nat)
    (hlcA : cA.length = n_global.length) (hlpA : pA.length = n_global.length)
    (hlcB : cB.length = n_global.length) (hlpB : pB.length = n_global.length) :
    ((mkSubdomain cA pA n_global hA).has_overlap (mkSubdomain cB pB n_global hB) =
      (mkSubdomain cB pB n_global hB).has_overlap (mkSubdomain cA pA n_global hA)) ∧
    ((mkSubdomain cA pA n_global hA).l2g_slice_spec
        ((mkSubdomain cA pA n_global hA).get_overlap_slice
          (mkSubdomain cB pB n_global hB)) =
      (mkSubdomain cB pB n_global hB).l2g_slice_spec
        ((mkSubdomain cB pB n_global hB).get_overlap_slice
          (mkSubdomain cA pA n_global hA))) ∧
    ((mkSubdomain cA pA n_global hA).has_overlap (mkSubdomain cB pB n_global hB)
        = false →
      ∃ i, i < n_global.length ∧
        (((mkSubdomain cA pA n_global hA).get_overlap_slice
            (mkSubdomain cB pB n_global hB)).getD i ⟨0, 0⟩).stop ≤
          (((mkSubdomain cA pA n_global hA).get_overlap_slice
            (mkSubdomain cB pB n_global hB)).getD i ⟨0, 0⟩).start) := by
  have hlenA : (mkSubdomain cA pA n_global hA).global_slice.length =
      n_global.length := by
    rw [global_slice_length]
    omega
  have hlenB : (mkSubdomain cB pB n_global hB).global_slice.length =
      n_global.length := by
    rw [global_slice_length]
    omega
  have hposA : (mkSubdomain cA pA n_global hA).position.length =
      n_global.length := by
    rw [position_length]
    omega
  have hposB : (mkSubdomain cB pB n_global hB).position.length =
      n_global.length := by
    rw [position_length]
    omega
  refine ⟨hasOverlap_comm _ _, ?_, ?_⟩
  · show Subdomain.l2g_slice_spec _ (Subdomain.get_overlap_slice _ _) = _
    unfold Subdomain.get_overlap_slice Subdomain.g2l_slice Subdomain.l2g_slice_spec
    rw [l2g_g2l_cancel _ _ _ (by rw [List.length_map, List.length_zip]; omega),
        l2g_g2l_cancel _ _ _ (by rw [List.length_map, List.length_zip]; omega)]
    exact interSlices_comm _ _
  · intro hno
    unfold Subdomain.has_overlap at hno
    obtain ⟨x, hmem, hx⟩ := List.all_eq_false.mp hno
    obtain ⟨i, hilen, hieq⟩ := List.mem_iff_getElem.mp hmem
    have hin : i < n_global.length := by
      rw [List.length_zip, hlenA, hlenB] at hilen
      omega
    refine ⟨i, hin, ?_⟩
    have hlenO : ((mkSubdomain cA pA n_global hA).get_overlap_slice
        (mkSubdomain cB pB n_global hB)).length = n_global.length := by
      simp only [Subdomain.get_overlap_slice, Subdomain.g2l_slice,
        List.length_zipWith, List.length_map, List.length_zip]
      omega
    rw [List.getD_eq_getElem _ _ (by rw [hlenO]; exact hin)]
    rw [← hieq] at hx
    simp only [List.getElem_zip, Bool.not_eq_true, Bool.or_eq_true,
      decide_eq_true_eq, not_or, not_le, ge_iff_le, Bool.not_or,
      Bool.and_eq_false_iff, Bool.not_eq_false] at hx
    simp only [Subdomain.get_overlap_slice, Subdomain.g2l_slice,
      List.getElem_zipWith, List.getElem_map, List.getElem_zip]
    rcases hx with h | h
    · exact add_le_add_right
        (sub_le_sub_right (le_trans (min_le_right _ _) (le_trans (of_decide_eq_true (by simpa using h)) (le_max_left _ _))) _) _
    · exact add_le_add_right
        (sub_le_sub_right (le_trans (min_le_left _ _) (le_trans (of_decide_eq_true (by simpa using h)) (le_max_right _ _))) _) _

/-- Witness for C8 at a concrete input: `n_global=[10]`, subdomain A =
coordinate `[0]` of `n_procs=[2]` with halo 1, subdomain B = coordinate
`[1]` of `n_procs=[2]` with halo 2. -/
theorem c8_overlap_symmetry_witness :
    (([0] : List Nat).length = ([10] : List Nat).length ∧
     ([2] : List Nat).length = ([10] : List Nat).length ∧
     ([1] : List Nat).length = ([10] : List Nat).length) ∧
    ((mkSubdomain [0] [2] [10] 1).has_overlap (mkSubdomain [1] [2] [10] 2) =
      (mkSubdomain [1] [2] [10] 2).has_overlap (mkSubdomain [0] [2] [10] 1)) ∧
    ((mkSubdomain [0] [2] [10] 1).l2g_slice_spec
        ((mkSubdomain [0] [2] [10] 1).get_overlap_slice
          (mkSubdomain [1] [2] [10] 2)) =
      (mkSubdomain [1] [2] [10] 2).l2g_slice_spec
        ((mkSubdomain [1] [2] [10] 2).get_overlap_slice
          (mkSubdomain [0] [2] [10] 1))) := by
  have h := c8_overlap_symmetry [10] [0] [2] [1] [2] 1 2 rfl rfl rfl rfl
  exact ⟨⟨rfl, rfl, rfl⟩, h.1, h.2.1⟩

/-- C4: the claim says `l2g_slice` is the inverse of `g2l_slice` (and vice
versa).  In the source the loop header is
`for l, p, s in zip(local_slice, self.position)`: the zip yields pairs, so
unpacking into three names raises `ValueError` on every non-empty slice
tuple, and `l2g_slice` never returns the inverse.  Evaluated here on rank 9
of `n_global=[102]`, `n_procs=[10]`, `halo=1` at the global slice
`[95:100]` (whose `g2l_slice` image is `[6:11]`). -/
theorem c4_l2g_slice_raises_on_g2l_result :
    (subdomainOfRank 9 [10] [102] 1).l2g_slice
        ((subdomainOfRank 9 [10] [102] 1).g2l_slice [⟨95, 100⟩]) =
      Except.error "ValueError: not enough values to unpack (expected 3, got 2)" ∧
    (subdomainOfRank 9 [10] [102] 1).g2l_slice [⟨95, 100⟩] = [⟨6, 11⟩] := by
  constructor
  · rfl
  · rfl

/-- C6: the claim says the per-stage transform-axis sets are pairwise
disjoint and their union covers every axis (each axis transformed exactly
once).  Code bug: for a 4-dimensional input domain with shared axes `[0]`
and no requested output shared axes, the planner yields output shared axes
`[3]`, one intermediate stage sharing only `[1]`, and per-stage transform
axes `[[0], [1], [3]]` — axis `2` is transformed in no stage (the source
sets `n = len(axes_missing)` where its own comment calls for groups of
`n_shared_axes`, producing a single group that is then truncated to
`n_shared_axes` elements, dropping axes). -/
theorem c6_fft_axes_drop_axis :
    parallelFFTPlan 4 [0] [] = Except.ok ⟨[3], [[1]], [[0], [1], [3]]⟩ ∧
    (∀ stage ∈ [[0], [1], [3]], (2 : Nat) ∉ stage) ∧ (2 : Nat) < 4 := by
  refine ⟨by rfl, by decide, by decide⟩

/-- C7: `DomainDecomposition` construction fails with the configuration
`ValueError` — raised during `__init__`, never deferred — if and only if
some non-shared axis (more than one process along it) has
`my_subdomain.inner_shape[axis] < halo`; when every non-shared axis has
`inner_shape[axis] >= halo` the construction succeeds. -/
theorem c7_construct_validation (n_global : List Nat) (halo : Nat)
    (n_procs : List Nat) (rank : Nat)
    (hpos : ∀ i, i < n_procs.length → 0 < n_procs.getD i 1) :
    ((∃ e, DDm.construct n_global halo n_procs rank = Except.error e) ↔
      ∃ i, i < n_global.length ∧ 1 < n_procs.getD i 1 ∧
        (subdomainOfRank rank n_procs n_global halo).inner_shape.getD i 0 < halo) ∧
    ((∀ i, i < n_global.length → 1 < n_procs.getD i 1 →
        halo ≤ (subdomainOfRank rank n_procs n_global halo).inner_shape.getD i 0) →
      DDm.construct n_global halo n_procs rank =
        Except.ok ⟨n_global, halo, n_procs⟩) := by
  have hne_iff : ∀ i, (n_procs.getD i 1 ≠ 1 ↔ 1 < n_procs.getD i 1) := by
    intro i
    by_cases hi : i < n_procs.length
    · have := hpos i hi
      omega
    · rw [List.getD_eq_default _ _ (Nat.le_of_not_lt hi)]
      simp
  constructor
  · constructor
    · rintro ⟨e, he⟩
      simp only [DDm.construct] at he
      split_ifs at he with h
      simp only [List.any_eq_true, List.mem_range, decide_eq_true_eq] at h
      obtain ⟨i, hi, h1, h2⟩ := h
      exact ⟨i, hi, (hne_iff i).mp h1, h2⟩
    · rintro ⟨i, hi, h1, h2⟩
      simp only [DDm.construct]
      rw [if_pos]
      · exact ⟨_, rfl⟩
      · simp only [List.any_eq_true, List.mem_range, decide_eq_true_eq]
        exact ⟨i, hi, (hne_iff i).mpr h1, h2⟩
  · intro hall
    simp only [DDm.construct]
    rw [if_neg]
    simp only [List.any_eq_true, List.mem_range, decide_eq_true_eq, not_exists]
    intro i hcon
    obtain ⟨hi, h1, h2⟩ := hcon
    exact absurd (hall i hi ((hne_iff i).mp h1)) (by omega)

/-- Witness for C7: `n_global=[8,8]`, `halo=2`, `n_procs=[1,2]`, rank 0 —
the only non-shared axis has owned extent 4 ≥ 2, so construction
succeeds. -/
theorem c7_construct_validation_witness :
    (∀ i, i < ([1, 2] : List Nat).length → 0 < ([1, 2] : List Nat).getD i 1) ∧
    DDm.construct [8, 8] 2 [1, 2] 0 = Except.ok ⟨[8, 8], 2, [1, 2]⟩ := by
  refine ⟨by decide, ?_⟩
  exact (c7_construct_validation [8, 8] 2 [1, 2] 0 (by decide)).2 (by decide)

/-- C10: `ParallelFFT.__init__` raises `ValueError`, constructing nothing,
exactly when the input domain has no shared axis or when more output
shared axes are requested than the input domain has shared axes. -/
theorem c10_parallelFFT_preconditions (n_dims : Nat) (sa_in sa_out : List Nat) :
    (∀ p, parallelFFTPlan n_dims sa_in sa_out ≠ Except.ok p) ↔
      (sa_in.length = 0 ∨ sa_in.length < sa_out.length) := by
  constructor
  · intro h
    by_contra hc
    push_neg at hc
    cases hplan : parallelFFTPlan n_dims sa_in sa_out with
    | ok p => exact h p hplan
    | error e =>
      simp only [parallelFFTPlan] at hplan
      rw [if_neg hc.1, if_neg (by omega : ¬ sa_in.length < sa_out.length)] at hplan
      cases hplan
  · intro h p hp
    simp only [parallelFFTPlan] at hp
    rcases h with h1 | h2
    · rw [if_pos h1] at hp
      cases hp
    · by_cases h1 : sa_in.length = 0
      · rw [if_pos h1] at hp
        cases hp
      · rw [if_neg h1, if_pos h2] at hp
        cases hp

end Fridom
